import Mathlib

/-!
Verification development for the sprig-config repository.

The subject is the configuration loader in
src/sprig-config-module/src/sprigconfig/: the import-resolution and
deep-merge engine of ConfigLoader (config_loader.py), the merge engine
deep_merge (loader.py), the secret wrapper LazySecret (lazy_secret.py) and
the CLI dump walk (cli.py).

Embedding conventions:
  * A parsed configuration tree is a Python dict of string keys to values.
    We model it as an ordered association list (Python dicts preserve
    insertion order; keys are unique in every dict produced by a YAML/JSON
    parser, and all operations below agree with the Python ones on
    unique-key lists).
  * An absolute filesystem path is its list of components below the root
    (so the list cfg, app.yml stands for /cfg/app.yml).  Path resolution
    (pathlib Path.resolve without symlinks) is component normalization.
  * The filesystem seen by one load() call is a finite association list
    from absolute paths to already-parsed file contents.  config_loader
    parses YAML/JSON/TOML after expanding environment placeholders in the
    raw text; both steps are irrelevant to the claims under study, so the
    model starts from parsed trees.
  * Fallible Python code is modelled in Except: ConfigLoadError carries a
    structured payload, and Python TypeError (from a call that does not
    match a function signature) is a separate constructor.
  * The recursive import walk of ConfigLoader._apply_imports_recursive is
    not structurally recursive (it loads files), so it takes a fuel
    argument that strictly decreases at every call; fuel exhaustion is a
    distinguished error, and a theorem below shows that enough fuel makes
    it unreachable, which is the termination argument of the Python code.
-/

/-- A node of a parsed configuration tree: the YAML/JSON scalars the repo
uses (strings, integers, booleans, null), nested mappings in insertion
order, sequences, and the LazySecret wrapper that the secret-injection pass
would substitute for an ENC(...) string. -/
inductive Val where
  | str (s : String)
  | int (n : Int)
  | bool (b : Bool)
  | null
  | obj (fields : List (String × Val))
  | arr (items : List Val)
  | secret (token : String)
deriving Repr

/-- A mapping node: ordered association list of keys to values. -/
abbrev Obj := List (String × Val)

/-- Python dict lookup, `node.get(k)` / `k in node`: first binding wins
(keys of a Python dict are unique). -/
def lookupObj : Obj → String → Option Val
  | [], _ => none
  | (k1, v1) :: rest, k => if k1 = k then some v1 else lookupObj rest k

/-- Python dict assignment `node[k] = v`: replaces the value in place when
the key is present (keeping its position), appends at the end otherwise. -/
def setKey : Obj → String → Val → Obj
  | [], k, v => [(k, v)]
  | (k1, v1) :: rest, k, v =>
      if k1 = k then (k, v) :: rest else (k1, v1) :: setKey rest k v

/-- Python `del node[k]` (dicts have unique keys, so deleting every
binding of the key is the same as deleting the one occurrence). -/
def removeKey : Obj → String → Obj
  | [], _ => []
  | (k1, v1) :: rest, k =>
      if k1 = k then removeKey rest k else (k1, v1) :: removeKey rest k

/-!
deep_merge from src/sprig-config-module/src/sprigconfig/loader.py
(lines 17-35), the repository's merge engine: for each key of override, if
both sides hold mappings recurse, otherwise override's value replaces
base's value (sequences included).  The in-place mutation of the Python
code is modelled by threading the updated base through the fold; logging
is modelled separately by mergeWarnings below.  config_loader.py imports
the same algorithm from a sprigconfig.deepmerge module that is absent from
the source tree; loader.py's definition and spec section 4.3 agree on it.
mergeKey is the body of the for-loop for a single override entry; the
whole loop is deep_merge.
-/
mutual

def deep_merge (base : Obj) : Obj → Obj
  | [] => base
  | (k, v) :: rest => deep_merge (mergeKey base k v) rest

def mergeKey (base : Obj) (k : String) : Val → Obj
  | .obj om =>
      match lookupObj base k with
      | some (.obj bm) => setKey base k (.obj (deep_merge bm om))
      | _ => setKey base k (.obj om)
  | v => setKey base k v

end

/-- Keys of a mapping, in order (Python `dict.keys()`). -/
def keysOf : Obj → List String
  | [] => []
  | (k, _) :: rest => k :: keysOf rest

/-- Python truthiness of a parsed value, as used by
`base.get("suppress_config_merge_warnings", False)` feeding an `or` /
`if`: empty string, zero, False, None, empty dict and empty list are
falsy. -/
def pyTruthy : Val → Bool
  | .str s => s ≠ ""
  | .int n => n ≠ 0
  | .bool b => b
  | .null => false
  | .obj o => !o.isEmpty
  | .arr xs => !xs.isEmpty
  | .secret _ => true

/-- `node.get("suppress_config_merge_warnings", False)` read as a boolean
condition (ConfigLoader.load lines 113 and 143). -/
def getSuppressFlag (o : Obj) : Bool :=
  pyTruthy ((lookupObj o "suppress_config_merge_warnings").getD (.bool false))

/-!
The warning channel of deep_merge (loader.py lines 22-27): when both
sides hold mappings at a key and the override mapping misses some base
keys, one warning is recorded for that path unless suppressed; the walk
then recurses exactly as deep_merge does (warnKey is the warning side of
one loop iteration, mergeWarnings folds the whole override).  Returns the
ordered list of emitted partial-override warnings.
-/
mutual

def mergeWarnings (base : Obj) (suppress : Bool) (path : String) : Obj → List String
  | [] => []
  | (k, v) :: rest =>
      warnKey base suppress path k v
        ++ mergeWarnings (mergeKey base k v) suppress path rest

def warnKey (base : Obj) (suppress : Bool) (path : String) (k : String) :
    Val → List String
  | .obj om =>
      match lookupObj base k with
      | some (.obj bm) =>
          let missing := (keysOf bm).filter (fun key => ¬ (key ∈ keysOf om))
          (if missing ≠ [] ∧ suppress = false then
            ["Config section " ++ path ++ k ++ " partially overridden"]
          else [])
            ++ mergeWarnings bm suppress (path ++ k ++ ".") om
      | _ => []
  | _ => []

end

/-- Python str.split on a single separator character, over the character
list of the string (defined from characters so that it computes inside
the kernel; the library splitOn does not reduce definitionally). -/
def chSplit (sep : Char) : List Char → List (List Char)
  | [] => [[]]
  | c :: rest =>
      let r := chSplit sep rest
      if c = sep then [] :: r
      else
        match r with
        | [] => [[c]]
        | g :: gs => (c :: g) :: gs

/-- Components of a path-like reference string, split on the POSIX
separator; empty components (leading, trailing or doubled slashes)
disappear, as they do under pathlib joining and resolution. -/
def splitRef (s : String) : List String :=
  ((chSplit (Char.ofNat 47) s.data).map (fun cs => String.mk cs)).filter
    (fun c => c ≠ "")

/-- Component normalization of pathlib Path.resolve on an absolute path
without symlinks: walk the components left to right onto an accumulator,
"." is dropped, ".." pops the last accumulated component (at the root it
stays at the root, as in POSIX), anything else is pushed. -/
def normalizePath (acc : List String) : List String → List String
  | [] => acc
  | c :: rest =>
      if c = "." then normalizePath acc rest
      else if c = ".." then normalizePath acc.dropLast rest
      else normalizePath (acc ++ [c]) rest

/-- pathlib PurePath.name of a reference string: its last nonempty
component (empty when there is none). -/
def pathBasename (key : String) : String :=
  ((splitRef key).getLast?).getD ""

/-- The structured payload of the errors the loader can raise.
traversal and circular are the two ConfigLoadError shapes raised by
ConfigLoader._resolve_import and ._apply_imports_recursive; each carries
the data interpolated into the Python message, so "the message names the
offending path" is visible in the constructor arguments.  configError
covers the remaining ConfigLoadError messages, typeError is a Python
TypeError (a call not matching a signature, or item assignment on a
non-dict), and fuelOut is the out-of-fuel marker of this model, never an
outcome of the Python code. -/
inductive LoadErr where
  | traversal (importKey : String) (configDir : List String)
  | circular (file : List String)
  | configError (msg : String)
  | typeError (msg : String)
  | fuelOut
deriving Repr, DecidableEq

/-- ConfigLoader._resolve_import (config_loader.py lines 186-215), first
step: if the basename of the reference has no dot, append the active
format extension. -/
def importKeyWithExt (ext : String) (importKey : String) : String :=
  if (pathBasename importKey).data.contains (Char.ofNat 46) then importKey
  else importKey ++ "." ++ ext

/-- The absolute path an import reference points at before the traversal
check: the configuration directory joined with the (extension-completed)
reference and resolved; a reference starting with the separator is
absolute and pathlib joining restarts from the root. -/
def importTarget (configDir : List String) (ext : String) (importKey : String) :
    List String :=
  let key := importKeyWithExt ext importKey
  if key.data.take 1 = [Char.ofNat 47] then normalizePath [] (splitRef key)
  else normalizePath (normalizePath [] configDir) (splitRef key)

/-- ConfigLoader._resolve_import (config_loader.py lines 186-215): fail
with a ConfigLoadError naming the offending path (and the directory, both
interpolated into the Python message) unless the resolved path is inside
the resolved configuration directory. -/
def resolveImport (configDir : List String) (ext : String) (importKey : String) :
    Except LoadErr (List String) :=
  if (normalizePath [] configDir).isPrefixOf (importTarget configDir ext importKey) then
    .ok (importTarget configDir ext importKey)
  else
    .error (.traversal (importKeyWithExt ext importKey) (normalizePath [] configDir))

/-- One record of ConfigLoader._record_import (config_loader.py lines
261-278): the import_trace entry for one touched file. -/
structure ImportEvent where
  file : List String
  importedBy : Option (List String)
  importKey : Option String
  depth : Nat
  order : Nat
deriving Repr, DecidableEq

/-- The filesystem contents visible to one load() call: parsed tree per
absolute path.  A path absent here is a file that does not exist. -/
abbrev FS := List (List String × Obj)

/-- File existence and parsed content (Format Adapter output). -/
def fsLookup : FS → List String → Option Obj
  | [], _ => none
  | (p, o) :: rest, q => if p = q then some o else fsLookup rest q

/-- The mutable per-load state of ConfigLoader (config_loader.py lines
70-80): the list of loaded file paths (_merge_trace), the structured trace
of imports (_import_trace), the visited-import set (_seen_imports, kept
as a list of distinct paths) and the monotonic order counter. -/
structure LoaderState where
  mergeTrace : List (List String)
  importTrace : List ImportEvent
  seenImports : List (List String)
  order : Nat
deriving Repr, DecidableEq

/-- The state every load() call starts from (ConfigLoader.__init__):
empty traces, empty visited set, counter at zero. -/
def initState : LoaderState := ⟨[], [], [], 0⟩

/-- ConfigLoader._record_import: append one trace entry carrying the
current counter value, then advance the counter. -/
def recordImport (st : LoaderState) (file : List String)
    (importedBy : Option (List String)) (importKey : Option String)
    (depth : Nat) : LoaderState :=
  { st with
      importTrace := st.importTrace ++ [⟨file, importedBy, importKey, depth, st.order⟩]
      order := st.order + 1 }

/-- ConfigLoader._load_file (config_loader.py lines 217-248): a missing
file yields an empty tree and leaves the merge trace untouched; an
existing file appends its resolved path to the merge trace and yields its
parsed content (parsing and environment expansion live behind FS). -/
def loadFile (fs : FS) (st : LoaderState) (path : List String) :
    Obj × LoaderState :=
  match fsLookup fs path with
  | none => ([], st)
  | some data => (data, { st with mergeTrace := st.mergeTrace ++ [path] })

/-!
ConfigLoader._apply_imports_recursive (config_loader.py lines 280-358),
split into the four loops of the Python body:

  * applyImports       - the body for one mapping node,
  * processImportsList - the for-loop over the entries of an imports list,
  * processChildren    - the for-loop over the node's items,
  * processSeq         - the inner for-loop over the items of a list value.

Two presentation changes, both observationally equal to the Python code:

  * The Python code deletes the imports key after the for-loop over the
    captured imports list; the model removes it before.  The entry is
    never read during the loop (the list was captured once), and no merge
    inside the loop can touch it: deep_merge only rewrites keys present in
    its override, and every override merged here is an import result whose
    own top-level imports key has already been removed by the recursive
    call.
  * The Python loop over node.items() mutates each child in place; the
    model rebuilds the entry list, which is the same map because dict keys
    are unique and child objects are distinct (no aliasing in freshly
    parsed trees).

The recursion of the Python code is not structural (imports load files),
so the model builds, by structural recursion on a fuel bound, the record
of the four loop bodies allowed to make fuel nested calls; every nested
call in importEngines uses the record one level down, so the recursion is
plain Nat recursion and computes inside the kernel.  Fuel exhaustion is
the distinguished fuelOut error; enough fuel makes it unreachable
(theorem below), which is the termination of the Python code.
-/

/-- The four loop bodies of _apply_imports_recursive at one call-depth
budget: node processes one mapping node, impList the entries of one
imports list (threading the node being merged into), children the items
of one node, seqItems the items of one list value. -/
structure Engines where
  node : Obj → List String → Nat → Bool → LoaderState →
    Except LoadErr (Obj × LoaderState)
  impList : List Val → Obj → List String → Nat → Bool → LoaderState →
    Except LoadErr (Obj × LoaderState)
  children : Obj → List String → Nat → Bool → LoaderState →
    Except LoadErr (Obj × LoaderState)
  seqItems : List Val → List String → Nat → Bool → LoaderState →
    Except LoadErr (List Val × LoaderState)

/-- The loop bodies with a budget of fuel nested calls (zero budget
always reports fuelOut). -/
def importEngines (fs : FS) (cfgDir : List String) (ext : String) :
    Nat → Engines
  | 0 =>
      { node := fun _ _ _ _ _ => .error .fuelOut
        impList := fun _ _ _ _ _ _ => .error .fuelOut
        children := fun _ _ _ _ _ => .error .fuelOut
        seqItems := fun _ _ _ _ _ => .error .fuelOut }
  | fuel + 1 =>
      let prev := importEngines fs cfgDir ext fuel
      { node := fun node parentFile depth suppress st =>
          match lookupObj node "imports" with
          | some (.arr items) => do
              let pr ← prev.impList items (removeKey node "imports")
                parentFile depth suppress st
              prev.children pr.1 parentFile depth suppress pr.2
          | some _ =>
              prev.children (removeKey node "imports") parentFile depth suppress st
          | none => prev.children node parentFile depth suppress st
        impList := fun items node parentFile depth suppress st =>
          match items with
          | [] => .ok (node, st)
          | .str importKey :: rest => do
              let imp ← resolveImport cfgDir ext importKey
              if imp ∈ st.seenImports then
                .error (.circular imp)
              else
                let st2 := { st with seenImports := st.seenImports ++ [imp] }
                let st3 := recordImport st2 imp (some parentFile)
                  (some importKey) (depth + 1)
                let lf := loadFile fs st3 imp
                let res ← prev.node lf.1 imp (depth + 1) suppress lf.2
                prev.impList rest (deep_merge node res.1) parentFile depth
                  suppress res.2
          | _ :: _ => .error (.typeError "import reference is not a string")
        children := fun entries parentFile depth suppress st =>
          match entries with
          | [] => .ok ([], st)
          | (k, .obj o) :: rest => do
              let r1 ← prev.node o parentFile depth suppress st
              let r2 ← prev.children rest parentFile depth suppress r1.2
              .ok ((k, .obj r1.1) :: r2.1, r2.2)
          | (k, .arr xs) :: rest => do
              let r1 ← prev.seqItems xs parentFile depth suppress st
              let r2 ← prev.children rest parentFile depth suppress r1.2
              .ok ((k, .arr r1.1) :: r2.1, r2.2)
          | kv :: rest => do
              let r2 ← prev.children rest parentFile depth suppress st
              .ok (kv :: r2.1, r2.2)
        seqItems := fun items parentFile depth suppress st =>
          match items with
          | [] => .ok ([], st)
          | .obj o :: rest => do
              let r1 ← prev.node o parentFile depth suppress st
              let r2 ← prev.seqItems rest parentFile depth suppress r1.2
              .ok (.obj r1.1 :: r2.1, r2.2)
          | v :: rest => do
              let r2 ← prev.seqItems rest parentFile depth suppress st
              .ok (v :: r2.1, r2.2) }

/-- _apply_imports_recursive on one mapping node, with a fuel budget. -/
def applyImports (fs : FS) (cfgDir : List String) (ext : String) (fuel : Nat)
    (node : Obj) (parentFile : List String) (depth : Nat) (suppress : Bool)
    (st : LoaderState) : Except LoadErr (Obj × LoaderState) :=
  (importEngines fs cfgDir ext fuel).node node parentFile depth suppress st

/-- The imports-list for-loop of _apply_imports_recursive. -/
def processImportsList (fs : FS) (cfgDir : List String) (ext : String)
    (fuel : Nat) (items : List Val) (node : Obj) (parentFile : List String)
    (depth : Nat) (suppress : Bool) (st : LoaderState) :
    Except LoadErr (Obj × LoaderState) :=
  (importEngines fs cfgDir ext fuel).impList items node parentFile depth suppress st

/-- The children for-loop of _apply_imports_recursive. -/
def processChildren (fs : FS) (cfgDir : List String) (ext : String)
    (fuel : Nat) (entries : Obj) (parentFile : List String) (depth : Nat)
    (suppress : Bool) (st : LoaderState) :
    Except LoadErr (Obj × LoaderState) :=
  (importEngines fs cfgDir ext fuel).children entries parentFile depth suppress st

/-- The inner sequence for-loop of _apply_imports_recursive. -/
def processSeq (fs : FS) (cfgDir : List String) (ext : String) (fuel : Nat)
    (items : List Val) (parentFile : List String) (depth : Nat)
    (suppress : Bool) (st : LoaderState) :
    Except LoadErr (List Val × LoaderState) :=
  (importEngines fs cfgDir ext fuel).seqItems items parentFile depth suppress st

/-- The marker test used by ConfigLoader._inject_secrets (config_loader.py
line 366): a string starting with ENC( and ending with a closing
parenthesis. -/
def encMatch (s : String) : Bool :=
  "ENC(".data.isPrefixOf s.data && ")".data.isSuffixOf s.data

/-- LazySecret.__init__ (lazy_secret.py lines 15-20): accepts exactly one
argument, checks the ENC(...) shape, stores the stripped token and an
empty decrypted cache. -/
structure LazySecretObj where
  encryptedValue : String
  decryptedValue : Option String
deriving Repr, DecidableEq

/-- LazySecret.__init__ called with its single positional argument:
ValueError unless the value has the ENC(...) shape, else the token is the
value without the 4-character prefix and 1-character suffix. -/
def lazySecretInit (encValue : String) : Except LoadErr LazySecretObj :=
  if encMatch encValue then
    .ok ⟨String.mk ((encValue.data.drop 4).dropLast), none⟩
  else
    .error (.configError "LazySecret must wrap ENC value")

/-- The call written in ConfigLoader._inject_secrets (config_loader.py
lines 367 and 373): LazySecret(value, key=os.getenv("APP_SECRET_KEY")).
The __init__ of lazy_secret.py declares no parameter named key, so under
Python call semantics this raises TypeError before the constructor body
runs, whatever the value and environment are. -/
def lazySecretCallWithKey (_encValue : String) (_key : Option String) :
    Except LoadErr Val :=
  .error (.typeError "init got an unexpected keyword argument key")

/-!
ConfigLoader._inject_secrets (config_loader.py lines 364-375): walk the
mapping in order; an ENC-matching string value is replaced by the result
of the LazySecret call above, a mapping value is recursed into, and
inside a list value only ENC-matching strings and mappings are touched
(an inner list is left as is).  injectSecretsEntry is the if-elif chain
on one dict value, injectSecretsItem the if-elif chain on one list item
(which, unlike the dict chain, leaves list values untouched), and
injectSecretsSeq the inner for-loop.
-/
mutual

def injectSecrets (appSecretKey : Option String) : Obj → Except LoadErr Obj
  | [] => .ok []
  | (k, v) :: rest => do
      let v2 ← injectSecretsEntry appSecretKey v
      let rest2 ← injectSecrets appSecretKey rest
      .ok ((k, v2) :: rest2)

def injectSecretsEntry (appSecretKey : Option String) : Val → Except LoadErr Val
  | .str s =>
      if encMatch s then lazySecretCallWithKey s appSecretKey
      else .ok (.str s)
  | .obj o => do
      let o2 ← injectSecrets appSecretKey o
      .ok (.obj o2)
  | .arr xs => do
      let xs2 ← injectSecretsSeq appSecretKey xs
      .ok (.arr xs2)
  | v => .ok v

def injectSecretsSeq (appSecretKey : Option String) :
    List Val → Except LoadErr (List Val)
  | [] => .ok []
  | item :: rest => do
      let i2 ← injectSecretsItem appSecretKey item
      let rest2 ← injectSecretsSeq appSecretKey rest
      .ok (i2 :: rest2)

def injectSecretsItem (appSecretKey : Option String) : Val → Except LoadErr Val
  | .str s =>
      if encMatch s then lazySecretCallWithKey s appSecretKey
      else .ok (.str s)
  | .obj o => do
      let o2 ← injectSecrets appSecretKey o
      .ok (.obj o2)
  | v => .ok v

end

/-- Render an absolute path back to its string form for the metadata
lists (str(path) on a resolved pathlib path). -/
def renderPath (p : List String) : String :=
  "/" ++ String.intercalate "/" p

/-- One _import_trace entry as it appears in the injected metadata
(str paths, None as null, integers for depth and order). -/
def eventToVal (e : ImportEvent) : Val :=
  .obj [("file", .str (renderPath e.file)),
        ("imported_by", match e.importedBy with
          | none => .null
          | some p => .str (renderPath p)),
        ("import_key", match e.importKey with
          | none => .null
          | some k => .str k),
        ("depth", .int e.depth),
        ("order", .int e.order)]

/-- Python setdefault(key, fresh dict) followed by use of the result as a
dict: returns the existing mapping when the key holds one, a fresh empty
mapping (installed at the key) when the key is absent, and AttributeError
or TypeError when the key holds a non-mapping. -/
def setdefaultObj (o : Obj) (k : String) : Except LoadErr Obj :=
  match lookupObj o k with
  | none => .ok []
  | some (.obj m) => .ok m
  | some _ => .error (.typeError "setdefault target is not a dict")

/-- ConfigLoader._inject_metadata (config_loader.py lines 381-391):
compute the runtime profile (falling back to the string default when the
profile is empty), walk into sprigconfig._meta creating the mappings when
absent, and set profile, sources and import_trace only when each is
absent (setdefault semantics: a user-authored value is kept). -/
def injectMetadata (merged : Obj) (profile : String) (st : LoaderState) :
    Except LoadErr Obj := do
  let runtimeProfile := if profile = "" then "default" else profile
  let node ← setdefaultObj merged "sprigconfig"
  let meta ← setdefaultObj node "_meta"
  let meta2 :=
    match lookupObj meta "profile" with
    | some _ => meta
    | none => setKey meta "profile" (.str runtimeProfile)
  let meta3 :=
    match lookupObj meta2 "sources" with
    | some _ => meta2
    | none => setKey meta2 "sources" (.arr (st.mergeTrace.map (fun p => .str (renderPath p))))
  let meta4 :=
    match lookupObj meta3 "import_trace" with
    | some _ => meta3
    | none => setKey meta3 "import_trace" (.arr (st.importTrace.map eventToVal))
  .ok (setKey merged "sprigconfig" (.obj (setKey node "_meta" (.obj meta4))))

/-- Step 6 of ConfigLoader.load (config_loader.py line 165):
merged.setdefault("app", dict())["profile"] = self.profile.  Item
assignment on a non-mapping app value is a Python TypeError. -/
def setAppProfile (merged : Obj) (profile : String) : Except LoadErr Obj :=
  match lookupObj merged "app" with
  | none => .ok (setKey merged "app" (.obj [("profile", .str profile)]))
  | some (.obj o) => .ok (setKey merged "app" (.obj (setKey o "profile" (.str profile))))
  | some _ => .error (.typeError "item assignment on non-dict app value")

/-- Steps 6 to 8 of ConfigLoader.load (config_loader.py lines 162-177)
applied to the merged base-plus-profile tree: force app.profile to the
requested profile, inject the metadata, inject the secret wrappers, and
return the final tree together with the loader state. -/
def finalizeLoad (merged : Obj) (profile : String) (st : LoaderState) :
    Except LoadErr (Obj × LoaderState) := do
  let merged2 ← setAppProfile merged profile
  let merged3 ← injectMetadata merged2 profile st
  let merged4 ← injectSecrets none merged3
  .ok (merged4, st)

/-- ConfigLoader.load (config_loader.py lines 86-177), the full pipeline:
load the base file, record it as the root trace entry, read the suppress
flag, resolve the base imports, load and resolve the optional profile
overlay, merge, force app.profile, inject metadata, inject secrets.  The
APP_SECRET_KEY environment value is irrelevant here because the
LazySecret call of _inject_secrets raises before using it; None stands
for the unset variable. -/
def load (fs : FS) (configDir : List String) (profile : String) (ext : String)
    (fuel : Nat) : Except LoadErr (Obj × LoaderState) := do
  let cfgR := normalizePath [] configDir
  let basePath := cfgR ++ ["application." ++ ext]
  let lf := loadFile fs initState basePath
  let base := lf.1
  let st2 := recordImport lf.2 basePath none none 0
  let suppress := getSuppressFlag base
  let ai ← applyImports fs cfgR ext fuel base basePath 0 suppress st2
  let profileName := "application-" ++ profile ++ "." ++ ext
  let profilePath := cfgR ++ [profileName]
  let pr ←
    match fsLookup fs profilePath with
    | some _ => do
        let plf := loadFile fs ai.2 profilePath
        let st5 := recordImport plf.2 profilePath (some basePath)
          (some profileName) 1
        let suppress2 := suppress || getSuppressFlag plf.1
        applyImports fs cfgR ext fuel plf.1 profilePath 1 suppress2 st5
    | none => Except.ok (([] : Obj), ai.2)
  finalizeLoad (deep_merge ai.1 pr.1) profile pr.2

/-- LazySecret._decrypt (lazy_secret.py lines 22-32): return the cached
plaintext when present; otherwise fail with ConfigLoadError when
APP_SECRET_KEY is unset, else decrypt the stored token with the key
(fernetDecrypt stands for Fernet(key).decrypt, a parameter because the
cipher is outside the model) and cache the plaintext.  Returns the
plaintext together with the updated handle. -/
def lazyDecrypt (s : LazySecretObj) (envKey : Option String)
    (fernetDecrypt : String → String → Except LoadErr String) :
    Except LoadErr (String × LazySecretObj) :=
  match s.decryptedValue with
  | some v => .ok (v, s)
  | none =>
      match envKey with
      | none => .error (.configError "APP_SECRET_KEY is required to decrypt secrets")
      | some k => do
          let p ← fernetDecrypt k s.encryptedValue
          .ok (p, { s with decryptedValue := some p })

/-- LazySecret.__str__ (lazy_secret.py lines 40-42): casting the handle to
a string runs _decrypt and returns the plaintext. -/
def lazyToString (s : LazySecretObj) (envKey : Option String)
    (fernetDecrypt : String → String → Except LoadErr String) :
    Except LoadErr (String × LazySecretObj) :=
  lazyDecrypt s envKey fernetDecrypt

/-!
The walk closure of _extract_data_for_dump (cli.py lines 25-45): a
LazySecret node becomes its decrypted plaintext when secrets were
explicitly requested and the literal redaction placeholder otherwise;
mappings and lists are rebuilt recursively (this walk, unlike
_inject_secrets, does recurse into lists of lists); every other node
passes through.  The decrypt parameter stands for LazySecret.get() on the
node (key lookup, cipher and cache behind it).
-/
mutual

def cliWalk (reveal : Bool) (decrypt : String → Except LoadErr String) :
    Val → Except LoadErr Val
  | .secret tok =>
      if reveal then do
        let s ← decrypt tok
        .ok (.str s)
      else .ok (.str "ENC(**REDACTED**)")
  | .obj o => do
      let o2 ← cliWalkObj reveal decrypt o
      .ok (.obj o2)
  | .arr xs => do
      let xs2 ← cliWalkSeq reveal decrypt xs
      .ok (.arr xs2)
  | v => .ok v

def cliWalkObj (reveal : Bool) (decrypt : String → Except LoadErr String) :
    Obj → Except LoadErr Obj
  | [] => .ok []
  | (k, v) :: rest => do
      let v2 ← cliWalk reveal decrypt v
      let rest2 ← cliWalkObj reveal decrypt rest
      .ok ((k, v2) :: rest2)

def cliWalkSeq (reveal : Bool) (decrypt : String → Except LoadErr String) :
    List Val → Except LoadErr (List Val)
  | [] => .ok []
  | v :: rest => do
      let v2 ← cliWalk reveal decrypt v
      let rest2 ← cliWalkSeq reveal decrypt rest
      .ok (v2 :: rest2)

end

/-- Modelled from the spec: the Configuration Facade dotted-path lookup,
Config.get("a.b.c") (spec section 4.5).  The Config class lives in
sprigconfig/config.py, which is absent from the source tree; the walk
follows the spec words: split the dotted path and descend through nested
mappings, returning none when any segment is absent or the current node
is not a mapping. -/
def configGet (o : Obj) (path : String) : Option Val :=
  let rec walk : Obj → List String → Option Val
    | _, [] => none
    | cur, [seg] => lookupObj cur seg
    | cur, seg :: rest =>
        match lookupObj cur seg with
        | some (.obj o2) => walk o2 rest
        | _ => none
  walk o ((chSplit (Char.ofNat 46) path.data).map (fun cs => String.mk cs))

/-! Basic lemmas about the dict operations. -/

theorem lookup_setKey_self (o : Obj) (k : String) (v : Val) :
    lookupObj (setKey o k v) k = some v := by
  induction o with
  | nil => simp [setKey, lookupObj]
  | cons kv rest ih =>
      obtain ⟨k1, v1⟩ := kv
      by_cases h : k1 = k
      · simp [setKey, h, lookupObj]
      · simp [setKey, h, lookupObj, ih]

theorem lookup_setKey_ne (o : Obj) (k k2 : String) (v : Val) (h : k2 ≠ k) :
    lookupObj (setKey o k v) k2 = lookupObj o k2 := by
  induction o with
  | nil =>
      have hne : ¬ (k = k2) := fun hh => h hh.symm
      simp [setKey, lookupObj, hne]
  | cons kv rest ih =>
      obtain ⟨k1, v1⟩ := kv
      by_cases h1 : k1 = k
      · subst h1
        simp [setKey, lookupObj, Ne.symm h]
      · simp [setKey, h1, lookupObj, ih]

theorem keys_setKey (o : Obj) (k : String) (v : Val) :
    keysOf (setKey o k v) = keysOf o ∨ keysOf (setKey o k v) = keysOf o ++ [k] := by
  induction o with
  | nil => simp [setKey, keysOf]
  | cons kv rest ih =>
      obtain ⟨k1, v1⟩ := kv
      by_cases h1 : k1 = k
      · subst h1
        simp [setKey, keysOf]
      · rcases ih with h2 | h2
        · exact Or.inl (by simp [setKey, h1, keysOf, h2])
        · exact Or.inr (by simp [setKey, h1, keysOf, h2])

theorem not_mem_keys_setKey (o : Obj) (k k2 : String) (v : Val)
    (h1 : ¬ k2 ∈ keysOf o) (h2 : k2 ≠ k) : ¬ k2 ∈ keysOf (setKey o k v) := by
  rcases keys_setKey o k v with h | h <;> rw [h]
  · exact h1
  · simp only [List.mem_append, List.mem_singleton]
    rintro (h3 | h3)
    · exact h1 h3
    · exact h2 h3

theorem lookup_none_not_key (o : Obj) (k : String)
    (h : lookupObj o k = none) : ¬ k ∈ keysOf o := by
  induction o with
  | nil => simp [keysOf]
  | cons kv rest ih =>
      obtain ⟨k1, v1⟩ := kv
      by_cases h1 : k1 = k
      · simp [lookupObj, h1] at h
      · simp only [lookupObj, h1, if_false] at h
        simp only [keysOf, List.mem_cons]
        rintro (h2 | h2)
        · exact h1 h2.symm
        · exact ih h h2

theorem keys_removeKey_not_mem (o : Obj) (k : String) :
    ¬ k ∈ keysOf (removeKey o k) := by
  induction o with
  | nil => simp [removeKey, keysOf]
  | cons kv rest ih =>
      obtain ⟨k1, v1⟩ := kv
      by_cases h1 : k1 = k
      · simpa [removeKey, h1] using ih
      · simp only [removeKey, h1, if_false, keysOf, List.mem_cons]
        rintro (h2 | h2)
        · exact h1 h2.symm
        · exact ih h2

theorem keys_removeKey_sub (o : Obj) (k k2 : String)
    (h : k2 ∈ keysOf (removeKey o k)) : k2 ∈ keysOf o := by
  induction o with
  | nil => simp [removeKey, keysOf] at h
  | cons kv rest ih =>
      obtain ⟨k1, v1⟩ := kv
      by_cases h1 : k1 = k
      · simp only [removeKey, h1, if_true] at h
        simp [keysOf, ih h]
      · simp only [removeKey, h1, if_false, keysOf, List.mem_cons] at h ⊢
        rcases h with h | h
        · exact Or.inl h
        · exact Or.inr (ih h)

/-!
Concrete filesystems used by the claim theorems.  Paths are components
under the root, so fsNestedImport describes a directory /cfg holding an
application.yml and a y.yml.
-/

/-- Spec section 8 nested-import scenario: application.yml has an imports
entry under key a.b referring to y, and y.yml defines a.b.foo. -/
def fsNestedImport : FS :=
  [(["cfg", "application.yml"],
    [("a", .obj [("b", .obj [("imports", .arr [.str "y"])])])]),
   (["cfg", "y.yml"],
    [("a", .obj [("b", .obj [("foo", .str "bar")])])])]

/-- Cyclic imports: the base file imports a, a imports b, b imports a. -/
def fsCycle : FS :=
  [(["cfg", "application.yml"], [("imports", .arr [.str "a"])]),
   (["cfg", "a.yml"], [("imports", .arr [.str "b"])]),
   (["cfg", "b.yml"], [("imports", .arr [.str "a"])])]

/-- Acyclic diamond: the base file imports b and c, both of which import
d; no file imports any of its ancestors, yet d is referenced twice. -/
def fsDiamond : FS :=
  [(["cfg", "application.yml"], [("imports", .arr [.str "b", .str "c"])]),
   (["cfg", "b.yml"], [("imports", .arr [.str "d"])]),
   (["cfg", "c.yml"], [("imports", .arr [.str "d"])]),
   (["cfg", "d.yml"], [("x", .int 1)])]

/-- Acyclic chain in which every file is referenced exactly once. -/
def fsChain : FS :=
  [(["cfg", "application.yml"], [("imports", .arr [.str "b"])]),
   (["cfg", "b.yml"], [("imports", .arr [.str "c"])]),
   (["cfg", "c.yml"], [("x", .int 1)])]

/-- Acyclic and duplicate-free reference graph in which the base file
imports the profile overlay file: the overlay's own single directive is
processed once in the base import phase and again in the overlay phase
of load. -/
def fsBaseImportsOverlay : FS :=
  [(["cfg", "application.yml"], [("imports", .arr [.str "application-dev"])]),
   (["cfg", "application-dev.yml"], [("imports", .arr [.str "w"])]),
   (["cfg", "w.yml"], [("x", .int 1)])]

/-- A base file whose only content is a mapping inside a sequence inside
a sequence, carrying an imports key. -/
def fsSeqSeqImports : FS :=
  [(["cfg", "application.yml"],
    [("x", .arr [.arr [.obj [("imports", .arr [.str "y"])]]])])]

/-- A base file holding one ENC-marked scalar. -/
def fsEncSecret : FS :=
  [(["cfg", "application.yml"], [("password", .str "ENC(tok)")])]

/-- C1: an import directive is merged into the exact node carrying the
imports key, never into the document root: with application.yml defining
an imports entry under a.b whose target y.yml defines a.b.foo, the loaded
tree satisfies get of a.b.a.b.foo equal to the string bar, while a.b.foo
and a root-level foo stay absent (nothing was promoted towards the
root). -/
theorem c1_import_merges_at_exact_node :
    (load fsNestedImport ["cfg"] "dev" "yml" 20).map
        (fun r => configGet r.1 "a.b.a.b.foo") = .ok (some (.str "bar"))
    ∧ (load fsNestedImport ["cfg"] "dev" "yml" 20).map
        (fun r => configGet r.1 "a.b.foo") = .ok none
    ∧ (load fsNestedImport ["cfg"] "dev" "yml" 20).map
        (fun r => configGet r.1 "foo") = .ok none :=
  ⟨rfl, rfl, rfl⟩

/-- C4: resolving the reference dotdot-dotdot-etc-passwd from directory
cfg fails with the ConfigLoadError naming the offending path (the
reference with the format extension appended), resolving imports-common
succeeds with the file common.yml inside the directory; in general a
successful resolution always lands inside the configuration directory and
the only failure shape is the traversal error naming the offending
path. -/
theorem c4_traversal_guard :
    resolveImport ["cfg"] "yml" "../../etc/passwd"
      = .error (.traversal "../../etc/passwd.yml" ["cfg"])
    ∧ resolveImport ["cfg"] "yml" "imports/common"
      = .ok ["cfg", "imports", "common.yml"]
    ∧ (∀ cfgDir ext key p, resolveImport cfgDir ext key = .ok p →
        (normalizePath [] cfgDir).isPrefixOf p = true)
    ∧ (∀ cfgDir ext key e, resolveImport cfgDir ext key = .error e →
        ∃ k2, e = .traversal k2 (normalizePath [] cfgDir)) := by
  refine ⟨rfl, rfl, ?_, ?_⟩
  · intro cfgDir ext key p h
    unfold resolveImport at h
    split at h
    · injection h with h2
      subst h2
      assumption
    · cases h
  · intro cfgDir ext key e h
    unfold resolveImport at h
    split at h
    · cases h
    · injection h with h2
      subst h2
      exact ⟨_, rfl⟩

/-- Closed witness for the universally quantified parts of the C4
theorem, discharged at the two concrete references. -/
theorem c4_traversal_guard_witness :
    (normalizePath [] ["cfg"]).isPrefixOf ["cfg", "imports", "common.yml"] = true
    ∧ ∃ k2, LoadErr.traversal "../../etc/passwd.yml" ["cfg"]
        = .traversal k2 (normalizePath [] ["cfg"]) :=
  ⟨c4_traversal_guard.2.2.1 ["cfg"] "yml" "imports/common"
      ["cfg", "imports", "common.yml"] rfl,
   c4_traversal_guard.2.2.2 ["cfg"] "yml" "../../etc/passwd"
      (LoadErr.traversal "../../etc/passwd.yml" ["cfg"]) rfl⟩

/-- C5: merging a mapping holding list L2 at key x over a mapping holding
list L1 at x yields exactly L2 at x, for every pair of lists: sequences
are replaced, never concatenated. -/
theorem c5_sequence_replacement (L1 L2 : List Val) :
    lookupObj (deep_merge [("x", .arr L1)] [("x", .arr L2)]) "x"
      = some (.arr L2) := by
  simp [deep_merge, lookupObj, setKey]

/-- C3 counterexample: an acyclic diamond (the base imports b and c; b
and c each import d; no file is its own ancestor) still fails with the
circular-import error, because d is visited twice.  This refutes the
claim that the error is raised only for cyclic graphs and that any
acyclic import graph avoids it. -/
theorem c3_diamond_acyclic_still_errors :
    load fsDiamond ["cfg"] "dev" "yml" 20
      = .error (.circular ["cfg", "d.yml"]) :=
  rfl

/-- C8 (code bug): resolving a tree holding the ENC-marked scalar tok
does not produce a secret handle: ConfigLoader._inject_secrets calls
LazySecret(value, key=...) while LazySecret.__init__ accepts no key
parameter, so the load raises a Python TypeError (the repository's own
tests construct LazySecret with a key argument, and the sibling loader.py
pipeline wraps without one, so the shipped lazy_secret.py contradicts
both).  Both the pass on its own and the whole load fail on the first
ENC value. -/
theorem c8_enc_wrap_raises_type_error :
    injectSecrets none [("password", .str "ENC(tok)")]
      = .error (.typeError "init got an unexpected keyword argument key")
    ∧ load fsEncSecret ["cfg"] "dev" "yml" 10
      = .error (.typeError "init got an unexpected keyword argument key") :=
  ⟨rfl, rfl⟩

/-!
Replace every secret handle in a tree by the literal redaction
placeholder, leaving everything else untouched: the behaviour the spec
prescribes for serialization without the reveal opt-in.  Spec-side
comparator definitions for the C9 theorem.
-/
mutual

def redactValSpec : Val → Val
  | .secret _ => .str "ENC(**REDACTED**)"
  | .obj o => .obj (redactObjSpec o)
  | .arr xs => .arr (redactSeqSpec xs)
  | v => v

def redactObjSpec : Obj → Obj
  | [] => []
  | (k, v) :: rest => (k, redactValSpec v) :: redactObjSpec rest

def redactSeqSpec : List Val → List Val
  | [] => []
  | v :: rest => redactValSpec v :: redactSeqSpec rest

end

/-- C9 (amended): the CLI dump serialization path without the secrets
opt-in performs no decryption and emits the literal redaction placeholder
for every secret handle, wherever it sits in the tree: the walk of
_extract_data_for_dump with reveal off equals pure redaction, for every
decryption oracle (the result does not mention the oracle, so no
decryption influences it). -/
theorem c9_cli_dump_redacts_without_reveal
    (decrypt : String → Except LoadErr String) (v : Val) :
    cliWalk false decrypt v = .ok (redactValSpec v) := by
  refine cliWalk.induct false decrypt
    (fun v => cliWalk false decrypt v = .ok (redactValSpec v))
    (fun xs => cliWalkSeq false decrypt xs = .ok (redactSeqSpec xs))
    (fun o => cliWalkObj false decrypt o = .ok (redactObjSpec o))
    ?_ ?_ ?_ ?_ ?_ ?_ ?_ ?_ ?_ v
  · intro tok h
    exact absurd h (by simp)
  · intro tok _
    rfl
  · intro o ih
    simp only [cliWalk, ih]
    rfl
  · intro xs ih
    simp only [cliWalk, ih]
    rfl
  · intro v h1 h2 h3
    cases v with
    | str s => rfl
    | int n => rfl
    | bool b => rfl
    | null => rfl
    | obj o => exact absurd rfl (h2 o)
    | arr xs => exact absurd rfl (h3 xs)
    | secret tok => exact absurd rfl (h1 tok)
  · rfl
  · intro k v rest ih1 ih2
    simp only [cliWalkObj, ih1, ih2]
    rfl
  · rfl
  · intro v rest ih1 ih2
    simp only [cliWalkSeq, ih1, ih2]
    rfl

/-- C9 counterexample: LazySecret.__str__ is a string-conversion path
with no reveal opt-in, yet it decrypts and returns the plaintext rather
than a redaction placeholder: with the key set and a decryption oracle,
casting the handle for token tok to a string yields the oracle's
plaintext (and caches it), which is not the redaction placeholder. -/
theorem c9_str_conversion_decrypts :
    lazyToString ⟨"tok", none⟩ (some "k")
        (fun key t => .ok ("PLAIN-" ++ key ++ "-" ++ t))
      = .ok ("PLAIN-k-tok", ⟨"tok", some "PLAIN-k-tok"⟩)
    ∧ ("PLAIN-k-tok" : String) ≠ "ENC(**REDACTED**)" :=
  ⟨rfl, by decide⟩

/-!
Full-depth key search, the property language of claim C2 (the code's own
walk is shallower; this comparator also looks inside sequences nested in
sequences).
-/
mutual

def hasKeyAnywhereObj (key : String) : Obj → Bool
  | [] => false
  | (k, v) :: rest =>
      k = key || hasKeyAnywhereVal key v || hasKeyAnywhereObj key rest

def hasKeyAnywhereVal (key : String) : Val → Bool
  | .obj o => hasKeyAnywhereObj key o
  | .arr xs => hasKeyAnywhereSeq key xs
  | _ => false

def hasKeyAnywhereSeq (key : String) : List Val → Bool
  | [] => false
  | v :: rest => hasKeyAnywhereVal key v || hasKeyAnywhereSeq key rest

end

/-- C2 counterexample: a valid, cycle-free configuration whose base file
nests a mapping inside a sequence inside a sequence keeps its imports key
after a completed load: the walk of _apply_imports_recursive only enters
mappings directly inside sequences, so the directive is never processed
nor deleted. -/
theorem c2_imports_survives_inside_nested_sequences :
    (load fsSeqSeqImports ["cfg"] "dev" "yml" 20).map
        (fun r => hasKeyAnywhereObj "imports" r.1) = .ok true :=
  rfl

/-- C6 counterexample: with an absent base file the load still completes,
the import trace records the base path (the root entry is recorded
unconditionally), but the sources list stays empty (_load_file only
appends existing files), so the two path sets differ. -/
theorem c6_absent_base_file_breaks_equality :
    (load [] ["cfg"] "dev" "yml" 10).map
        (fun r => (r.2.mergeTrace, r.2.importTrace.map (fun e => e.file)))
      = .ok ([], [["cfg", "application.yml"]])
    ∧ ([] : List (List String)) ≠ [["cfg", "application.yml"]] :=
  ⟨rfl, by decide⟩

/-- The suppress flag handed to the final base-profile merge by
ConfigLoader.load: read from the top level of the base tree (line 113),
then or-ed with the profile overlay's flag (line 143) before the merge of
line 160. -/
def loadSuppress (base override : Obj) : Bool :=
  getSuppressFlag base || getSuppressFlag override

/-- With suppression on, the merge engine emits no warning anywhere in
the walk. -/
theorem mergeWarnings_suppressed (base : Obj) (path : String) (override : Obj) :
    mergeWarnings base true path override = [] := by
  refine mergeWarnings.induct
    (fun base suppress path override =>
      suppress = true → mergeWarnings base suppress path override = [])
    (fun base suppress path k v =>
      suppress = true → warnKey base suppress path k v = [])
    ?_ ?_ ?_ ?_ ?_ base true path override rfl
  · intro base suppress path k om bm hlk ih hsup
    subst hsup
    simp [warnKey, hlk, ih rfl]
  · intro base suppress path k om hnone hsup
    cases hlk : lookupObj base k with
    | none => simp [warnKey, hlk]
    | some v =>
        cases v with
        | obj bm => exact absurd hlk (hnone bm)
        | str s => simp [warnKey, hlk]
        | int n => simp [warnKey, hlk]
        | bool b => simp [warnKey, hlk]
        | null => simp [warnKey, hlk]
        | arr xs => simp [warnKey, hlk]
        | secret t => simp [warnKey, hlk]
  · intro base suppress path k v hnotobj hsup
    cases v with
    | obj om => exact absurd rfl (hnotobj om)
    | str s => rfl
    | int n => rfl
    | bool b => rfl
    | null => rfl
    | arr xs => rfl
    | secret t => rfl
  · intro base suppress path hsup
    rfl
  · intro base suppress path k v rest ih1 ih2 hsup
    simp [mergeWarnings, ih1 hsup, ih2 hsup]

/-- C7: when the suppress_config_merge_warnings flag is authored true on
either input tree, the merge step of load (whose suppress argument is the
or of the two top-level flags, computed before the walk starts) emits no
partial-override warning at any path; and without the flag a partial
override does produce a warning (concrete pair), so the suppression is
what silences the channel. -/
theorem c7_suppress_flag_honored (base override : Obj) (path : String)
    (h : lookupObj base "suppress_config_merge_warnings" = some (.bool true)
       ∨ lookupObj override "suppress_config_merge_warnings" = some (.bool true)) :
    mergeWarnings base (loadSuppress base override) path override = []
    ∧ mergeWarnings [("a", .obj [("p", .int 1), ("q", .int 2)])]
        (loadSuppress [("a", .obj [("p", .int 1), ("q", .int 2)])]
          [("a", .obj [("p", .int 5)])])
        "" [("a", .obj [("p", .int 5)])] ≠ [] := by
  constructor
  · have hs : loadSuppress base override = true := by
      rcases h with h | h <;>
        simp [loadSuppress, getSuppressFlag, h, pyTruthy]
    rw [hs]
    exact mergeWarnings_suppressed base path override
  · decide

/-- Closed witness for C7: a base tree carrying the flag suppresses the
warning for a partial override that would otherwise warn. -/
theorem c7_suppress_flag_honored_witness :
    mergeWarnings
        [("suppress_config_merge_warnings", .bool true),
         ("a", .obj [("p", .int 1), ("q", .int 2)])]
        (loadSuppress
          [("suppress_config_merge_warnings", .bool true),
           ("a", .obj [("p", .int 1), ("q", .int 2)])]
          [("a", .obj [("p", .int 5)])])
        "" [("a", .obj [("p", .int 5)])] = [] :=
  (c7_suppress_flag_honored
    [("suppress_config_merge_warnings", .bool true),
     ("a", .obj [("p", .int 1), ("q", .int 2)])]
    [("a", .obj [("p", .int 5)])] "" (Or.inl rfl)).1

/-- Destructor for a successful monadic bind over Except. -/
theorem bindOk {ε α β : Type} {e : Except ε α} {f : α → Except ε β} {b : β}
    (h : (e >>= f) = .ok b) : ∃ a, e = .ok a ∧ f a = .ok b := by
  cases e with
  | error err => simp [Bind.bind, Except.bind] at h
  | ok a =>
      refine ⟨a, rfl, ?_⟩
      simpa [Bind.bind, Except.bind] using h

/-- A successful secret-injection pass returns its input unchanged: the
only rewriting the pass can do is the LazySecret call, which always
raises. -/
theorem injectSecrets_ok_id (key : Option String) (o : Obj) :
    ∀ o2, injectSecrets key o = .ok o2 → o2 = o := by
  refine injectSecrets.induct key
    (fun o => ∀ o2, injectSecrets key o = .ok o2 → o2 = o)
    (fun v => ∀ v2, injectSecretsEntry key v = .ok v2 → v2 = v)
    (fun xs => ∀ xs2, injectSecretsSeq key xs = .ok xs2 → xs2 = xs)
    (fun v => ∀ v2, injectSecretsItem key v = .ok v2 → v2 = v)
    ?_ ?_ ?_ ?_ ?_ ?_ ?_ ?_ ?_ ?_ ?_ ?_ ?_ o
  · intro s henc v2 h
    simp [injectSecretsEntry, henc, lazySecretCallWithKey] at h
  · intro s henc v2 h
    simp only [injectSecretsEntry, henc, if_false] at h
    cases h
    rfl
  · intro o3 ih v2 h
    simp only [injectSecretsEntry] at h
    obtain ⟨a, ha, hb⟩ := bindOk h
    cases hb
    rw [ih a ha]
  · intro xs ih v2 h
    simp only [injectSecretsEntry] at h
    obtain ⟨a, ha, hb⟩ := bindOk h
    cases hb
    rw [ih a ha]
  · intro v h1 h2 h3 v2 h
    cases v with
    | str s => exact absurd rfl (h1 s)
    | obj o3 => exact absurd rfl (h2 o3)
    | arr xs => exact absurd rfl (h3 xs)
    | int n => cases h; rfl
    | bool b => cases h; rfl
    | null => cases h; rfl
    | secret t => cases h; rfl
  · intro s henc v2 h
    simp [injectSecretsItem, henc, lazySecretCallWithKey] at h
  · intro s henc v2 h
    simp only [injectSecretsItem, henc, if_false] at h
    cases h
    rfl
  · intro o3 ih v2 h
    simp only [injectSecretsItem] at h
    obtain ⟨a, ha, hb⟩ := bindOk h
    cases hb
    rw [ih a ha]
  · intro v h1 h2 v2 h
    cases v with
    | str s => exact absurd rfl (h1 s)
    | obj o3 => exact absurd rfl (h2 o3)
    | arr xs => cases h; rfl
    | int n => cases h; rfl
    | bool b => cases h; rfl
    | null => cases h; rfl
    | secret t => cases h; rfl
  · intro o2 h
    cases h
    rfl
  · intro k2 v rest ih1 ih2 o2 h
    simp only [injectSecrets] at h
    obtain ⟨a, ha, hb⟩ := bindOk h
    obtain ⟨a2, ha2, hb2⟩ := bindOk hb
    cases hb2
    rw [ih1 a ha, ih2 a2 ha2]
  · intro xs2 h
    cases h
    rfl
  · intro item rest ih1 ih2 xs2 h
    simp only [injectSecretsSeq] at h
    obtain ⟨a, ha, hb⟩ := bindOk h
    obtain ⟨a2, ha2, hb2⟩ := bindOk hb
    cases hb2
    rw [ih1 a ha, ih2 a2 ha2]

/-- A successful app-profile normalization puts the requested profile
string under app.profile. -/
theorem setAppProfile_ok (merged out : Obj) (p : String)
    (h : setAppProfile merged p = .ok out) :
    ∃ o, lookupObj out "app" = some (.obj o)
      ∧ lookupObj o "profile" = some (.str p) := by
  unfold setAppProfile at h
  cases hlk : lookupObj merged "app" with
  | none =>
      rw [hlk] at h
      cases h
      exact ⟨_, lookup_setKey_self _ _ _, by simp [lookupObj]⟩
  | some v =>
      rw [hlk] at h
      cases v with
      | obj o =>
          cases h
          exact ⟨_, lookup_setKey_self _ _ _, lookup_setKey_self _ _ _⟩
      | str s => cases h
      | int n => cases h
      | bool b => cases h
      | null => cases h
      | arr xs => cases h
      | secret t => cases h

/-- Metadata injection only rewrites the sprigconfig key: every other
top-level lookup is unchanged. -/
theorem injectMetadata_preserves (merged out : Obj) (p : String)
    (st : LoaderState) (k : String) (hk : k ≠ "sprigconfig")
    (h : injectMetadata merged p st = .ok out) :
    lookupObj out k = lookupObj merged k := by
  unfold injectMetadata at h
  obtain ⟨node, hnode, h⟩ := bindOk h
  obtain ⟨meta, hmeta, h⟩ := bindOk h
  cases h
  exact lookup_setKey_ne _ _ _ _ hk

/-- C10: whenever load completes, the returned tree's app.profile equals
the requested profile, whatever app.profile the base file, the overlay or
any imported file authored: step 6 of load overwrites it after the merge,
metadata injection touches only the sprigconfig namespace, and a
completed secret pass returns the tree unchanged. -/
theorem c10_profile_forced (fs : FS) (cfg : List String) (profile ext : String)
    (fuel : Nat) (tree : Obj) (st : LoaderState)
    (h : load fs cfg profile ext fuel = .ok (tree, st)) :
    configGet tree "app.profile" = some (.str profile) := by
  simp only [load] at h
  obtain ⟨ai, hai, h⟩ := bindOk h
  have h2 : ∃ pr : Obj × LoaderState,
      finalizeLoad (deep_merge ai.1 pr.1) profile pr.2 = .ok (tree, st) := by
    rcases hfs : fsLookup fs (normalizePath [] cfg
        ++ ["application-" ++ profile ++ "." ++ ext]) with _ | pdata
    · rw [hfs] at h
      obtain ⟨pr, hpr, h⟩ := bindOk h
      cases hpr
      exact ⟨_, h⟩
    · rw [hfs] at h
      obtain ⟨pr, hpr, h⟩ := bindOk h
      exact ⟨pr, h⟩
  obtain ⟨pr, h⟩ := h2
  unfold finalizeLoad at h
  obtain ⟨m2, hm2, h⟩ := bindOk h
  obtain ⟨m3, hm3, h⟩ := bindOk h
  obtain ⟨m4, hm4, h⟩ := bindOk h
  injection h with hp
  have htree : m4 = tree := congrArg Prod.fst hp
  have hid : m4 = m3 := injectSecrets_ok_id none m3 m4 hm4
  obtain ⟨o, ho, hop⟩ := setAppProfile_ok _ _ _ hm2
  have hpres := injectMetadata_preserves m2 m3 profile pr.2 "app"
    (by decide) hm3
  have happ : lookupObj tree "app" = some (.obj o) := by
    rw [← htree, hid, hpres, ho]
  unfold configGet
  have hsplit : (chSplit (Char.ofNat 46) ("app.profile").data).map
      (fun cs => String.mk cs) = ["app", "profile"] := rfl
  rw [hsplit]
  simp [configGet.walk, happ, hop]

/-- The spec section 8 profile scenario: a base file authoring
app.profile as base, and a dev overlay authoring it as filedev. -/
def fsProfiles : FS :=
  [(["cfg", "application.yml"],
    [("app", .obj [("name", .str "X"), ("profile", .str "base")])]),
   (["cfg", "application-dev.yml"],
    [("app", .obj [("profile", .str "filedev"), ("debug", .bool true)])])]

/-- The tree a dev load of fsProfiles returns. -/
def profilesTree : Obj :=
  [("app", .obj [("name", .str "X"), ("profile", .str "dev"),
    ("debug", .bool true)]),
   ("sprigconfig", .obj [("_meta", .obj
     [("profile", .str "dev"),
      ("sources", .arr [.str "/cfg/application.yml",
        .str "/cfg/application-dev.yml"]),
      ("import_trace", .arr
        [.obj [("file", .str "/cfg/application.yml"),
           ("imported_by", .null), ("import_key", .null),
           ("depth", .int 0), ("order", .int 0)],
         .obj [("file", .str "/cfg/application-dev.yml"),
           ("imported_by", .str "/cfg/application.yml"),
           ("import_key", .str "application-dev.yml"),
           ("depth", .int 1), ("order", .int 1)]])])])]

/-- The loader state that load of fsProfiles ends in. -/
def profilesState : LoaderState :=
  ⟨[["cfg", "application.yml"], ["cfg", "application-dev.yml"]],
   [⟨["cfg", "application.yml"], none, none, 0, 0⟩,
    ⟨["cfg", "application-dev.yml"], some ["cfg", "application.yml"],
      some "application-dev.yml", 1, 1⟩],
   [], 2⟩

/-- Closed witness for C10: the dev load of fsProfiles returns a tree
whose app.profile is dev, although both files author other values. -/
theorem c10_profile_forced_witness :
    configGet profilesTree "app.profile" = some (.str "dev") :=
  c10_profile_forced fsProfiles ["cfg"] "dev" "yml" 20
    profilesTree profilesState rfl

/-!
Step equations of the four wrappers, all definitional: they restate one
unfolding of importEngines so that later proofs by induction on fuel
never unfold the record again.
-/

theorem applyImports_zero (fs : FS) (cfg : List String) (ext : String)
    (node : Obj) (pf : List String) (d : Nat) (sup : Bool) (st : LoaderState) :
    applyImports fs cfg ext 0 node pf d sup st = .error .fuelOut := rfl

theorem applyImports_succ (fs : FS) (cfg : List String) (ext : String)
    (fuel : Nat) (node : Obj) (pf : List String) (d : Nat) (sup : Bool)
    (st : LoaderState) :
    applyImports fs cfg ext (fuel + 1) node pf d sup st =
      match lookupObj node "imports" with
      | some (.arr items) => do
          let pr ← processImportsList fs cfg ext fuel items
            (removeKey node "imports") pf d sup st
          processChildren fs cfg ext fuel pr.1 pf d sup pr.2
      | some _ =>
          processChildren fs cfg ext fuel (removeKey node "imports") pf d sup st
      | none => processChildren fs cfg ext fuel node pf d sup st := rfl

theorem processImportsList_zero (fs : FS) (cfg : List String) (ext : String)
    (items : List Val) (node : Obj) (pf : List String) (d : Nat) (sup : Bool)
    (st : LoaderState) :
    processImportsList fs cfg ext 0 items node pf d sup st
      = .error .fuelOut := rfl

theorem processImportsList_nil (fs : FS) (cfg : List String) (ext : String)
    (fuel : Nat) (node : Obj) (pf : List String) (d : Nat) (sup : Bool)
    (st : LoaderState) :
    processImportsList fs cfg ext (fuel + 1) [] node pf d sup st
      = .ok (node, st) := rfl

theorem processImportsList_cons_str (fs : FS) (cfg : List String)
    (ext : String) (fuel : Nat) (key : String) (rest : List Val) (node : Obj)
    (pf : List String) (d : Nat) (sup : Bool) (st : LoaderState) :
    processImportsList fs cfg ext (fuel + 1) (.str key :: rest) node pf d sup st
      = (do
          let imp ← resolveImport cfg ext key
          if imp ∈ st.seenImports then
            .error (.circular imp)
          else
            let lf := loadFile fs
              (recordImport { st with seenImports := st.seenImports ++ [imp] }
                imp (some pf) (some key) (d + 1)) imp
            do
              let res ← applyImports fs cfg ext fuel lf.1 imp (d + 1) sup lf.2
              processImportsList fs cfg ext fuel rest (deep_merge node res.1)
                pf d sup res.2) := rfl

theorem processImportsList_cons_other (fs : FS) (cfg : List String)
    (ext : String) (fuel : Nat) (item : Val) (rest : List Val) (node : Obj)
    (pf : List String) (d : Nat) (sup : Bool) (st : LoaderState)
    (h : ∀ s, item ≠ .str s) :
    processImportsList fs cfg ext (fuel + 1) (item :: rest) node pf d sup st
      = .error (.typeError "import reference is not a string") := by
  cases item with
  | str s => exact absurd rfl (h s)
  | int n => rfl
  | bool b => rfl
  | null => rfl
  | obj o => rfl
  | arr xs => rfl
  | secret t => rfl

theorem processChildren_zero (fs : FS) (cfg : List String) (ext : String)
    (entries : Obj) (pf : List String) (d : Nat) (sup : Bool)
    (st : LoaderState) :
    processChildren fs cfg ext 0 entries pf d sup st = .error .fuelOut := rfl

theorem processChildren_nil (fs : FS) (cfg : List String) (ext : String)
    (fuel : Nat) (pf : List String) (d : Nat) (sup : Bool) (st : LoaderState) :
    processChildren fs cfg ext (fuel + 1) [] pf d sup st = .ok ([], st) := rfl

theorem processChildren_cons_obj (fs : FS) (cfg : List String) (ext : String)
    (fuel : Nat) (k : String) (o : Obj) (rest : Obj) (pf : List String)
    (d : Nat) (sup : Bool) (st : LoaderState) :
    processChildren fs cfg ext (fuel + 1) ((k, .obj o) :: rest) pf d sup st
      = (do
          let r1 ← applyImports fs cfg ext fuel o pf d sup st
          let r2 ← processChildren fs cfg ext fuel rest pf d sup r1.2
          .ok ((k, .obj r1.1) :: r2.1, r2.2)) := rfl

theorem processChildren_cons_arr (fs : FS) (cfg : List String) (ext : String)
    (fuel : Nat) (k : String) (xs : List Val) (rest : Obj) (pf : List String)
    (d : Nat) (sup : Bool) (st : LoaderState) :
    processChildren fs cfg ext (fuel + 1) ((k, .arr xs) :: rest) pf d sup st
      = (do
          let r1 ← processSeq fs cfg ext fuel xs pf d sup st
          let r2 ← processChildren fs cfg ext fuel rest pf d sup r1.2
          .ok ((k, .arr r1.1) :: r2.1, r2.2)) := rfl

theorem processChildren_cons_other (fs : FS) (cfg : List String)
    (ext : String) (fuel : Nat) (k : String) (v : Val) (rest : Obj)
    (pf : List String) (d : Nat) (sup : Bool) (st : LoaderState)
    (h1 : ∀ o, v ≠ .obj o) (h2 : ∀ xs, v ≠ .arr xs) :
    processChildren fs cfg ext (fuel + 1) ((k, v) :: rest) pf d sup st
      = (do
          let r2 ← processChildren fs cfg ext fuel rest pf d sup st
          .ok ((k, v) :: r2.1, r2.2)) := by
  cases v with
  | obj o => exact absurd rfl (h1 o)
  | arr xs => exact absurd rfl (h2 xs)
  | str s => rfl
  | int n => rfl
  | bool b => rfl
  | null => rfl
  | secret t => rfl

theorem processSeq_zero (fs : FS) (cfg : List String) (ext : String)
    (xs : List Val) (pf : List String) (d : Nat) (sup : Bool)
    (st : LoaderState) :
    processSeq fs cfg ext 0 xs pf d sup st = .error .fuelOut := rfl

theorem processSeq_nil (fs : FS) (cfg : List String) (ext : String)
    (fuel : Nat) (pf : List String) (d : Nat) (sup : Bool) (st : LoaderState) :
    processSeq fs cfg ext (fuel + 1) [] pf d sup st = .ok ([], st) := rfl

theorem processSeq_cons_obj (fs : FS) (cfg : List String) (ext : String)
    (fuel : Nat) (o : Obj) (rest : List Val) (pf : List String) (d : Nat)
    (sup : Bool) (st : LoaderState) :
    processSeq fs cfg ext (fuel + 1) (.obj o :: rest) pf d sup st
      = (do
          let r1 ← applyImports fs cfg ext fuel o pf d sup st
          let r2 ← processSeq fs cfg ext fuel rest pf d sup r1.2
          .ok (.obj r1.1 :: r2.1, r2.2)) := rfl

theorem processSeq_cons_other (fs : FS) (cfg : List String) (ext : String)
    (fuel : Nat) (v : Val) (rest : List Val) (pf : List String) (d : Nat)
    (sup : Bool) (st : LoaderState) (h : ∀ o, v ≠ .obj o) :
    processSeq fs cfg ext (fuel + 1) (v :: rest) pf d sup st
      = (do
          let r2 ← processSeq fs cfg ext fuel rest pf d sup st
          .ok (v :: r2.1, r2.2)) := by
  cases v with
  | obj o => exact absurd rfl (h o)
  | str s => rfl
  | int n => rfl
  | bool b => rfl
  | null => rfl
  | arr xs => rfl
  | secret t => rfl

/-- The provenance invariant of one load: the list of loaded files is the
list of recorded trace files restricted to those existing on disk (and in
particular, the sources and the existing trace files agree as sets). -/
def tracesAgree (fs : FS) (st : LoaderState) : Prop :=
  st.mergeTrace = (st.importTrace.map (fun e => e.file)).filter
    (fun p => (fsLookup fs p).isSome)

/-- Recording a file and then loading it preserves the provenance
invariant: the trace gains the file unconditionally, the sources gain it
exactly when it exists. -/
theorem tracesAgree_record_load (fs : FS) (st : LoaderState)
    (imp : List String) (ib : Option (List String)) (ik : Option String)
    (d : Nat) (h : tracesAgree fs st) :
    tracesAgree fs (loadFile fs (recordImport st imp ib ik d) imp).2 := by
  unfold tracesAgree at h ⊢
  unfold loadFile recordImport
  cases hf : fsLookup fs imp with
  | none => simp [hf, h]
  | some o => simp [hf, h]

/-- The seen-set update does not touch the traces. -/
theorem tracesAgree_seen (fs : FS) (st : LoaderState) (s : List (List String))
    (h : tracesAgree fs st) :
    tracesAgree fs { st with seenImports := s } := h

/-- Preservation of the provenance invariant by every loop of the import
walk, simultaneously for the four wrappers, by induction on fuel. -/
theorem tracesAgree_engine (fs : FS) (cfg : List String) (ext : String) :
    ∀ fuel : Nat,
    (∀ node pf d sup st r,
        applyImports fs cfg ext fuel node pf d sup st = .ok r →
        tracesAgree fs st → tracesAgree fs r.2)
    ∧ (∀ items node pf d sup st r,
        processImportsList fs cfg ext fuel items node pf d sup st = .ok r →
        tracesAgree fs st → tracesAgree fs r.2)
    ∧ (∀ entries pf d sup st r,
        processChildren fs cfg ext fuel entries pf d sup st = .ok r →
        tracesAgree fs st → tracesAgree fs r.2)
    ∧ (∀ xs pf d sup st r,
        processSeq fs cfg ext fuel xs pf d sup st = .ok r →
        tracesAgree fs st → tracesAgree fs r.2) := by
  intro fuel
  induction fuel with
  | zero =>
      refine ⟨?_, ?_, ?_, ?_⟩
      · intro node pf d sup st r h _
        rw [applyImports_zero] at h
        cases h
      · intro items node pf d sup st r h _
        rw [processImportsList_zero] at h
        cases h
      · intro entries pf d sup st r h _
        rw [processChildren_zero] at h
        cases h
      · intro xs pf d sup st r h _
        rw [processSeq_zero] at h
        cases h
  | succ fuel ih =>
      obtain ⟨ihAI, ihPL, ihPC, ihPS⟩ := ih
      refine ⟨?_, ?_, ?_, ?_⟩
      · intro node pf d sup st r h hInv
        rw [applyImports_succ] at h
        rcases hlk : lookupObj node "imports" with _ | v
        · rw [hlk] at h
          exact ihPC _ _ _ _ _ _ h hInv
        · rw [hlk] at h
          cases v with
          | arr items =>
              obtain ⟨pr, hpr, h2⟩ := bindOk h
              exact ihPC _ _ _ _ _ _ h2 (ihPL _ _ _ _ _ _ _ hpr hInv)
          | str s => exact ihPC _ _ _ _ _ _ h hInv
          | int n => exact ihPC _ _ _ _ _ _ h hInv
          | bool b => exact ihPC _ _ _ _ _ _ h hInv
          | null => exact ihPC _ _ _ _ _ _ h hInv
          | obj o => exact ihPC _ _ _ _ _ _ h hInv
          | secret t => exact ihPC _ _ _ _ _ _ h hInv
      · intro items node pf d sup st r h hInv
        cases items with
        | nil =>
            rw [processImportsList_nil] at h
            cases h
            exact hInv
        | cons item rest =>
            cases item with
            | str key =>
                rw [processImportsList_cons_str] at h
                obtain ⟨imp, himp, h2⟩ := bindOk h
                by_cases hseen : imp ∈ st.seenImports
                · rw [if_pos hseen] at h2
                  cases h2
                · rw [if_neg hseen] at h2
                  obtain ⟨res, hres, h3⟩ := bindOk h2
                  refine ihPL _ _ _ _ _ _ _ h3 (ihAI _ _ _ _ _ _ hres ?_)
                  exact tracesAgree_record_load fs _ imp (some pf) (some key)
                    (d + 1) (tracesAgree_seen fs st _ hInv)
            | int n =>
                rw [processImportsList_cons_other fs cfg ext fuel _ rest node
                  pf d sup st (fun s => by simp)] at h
                cases h
            | bool b =>
                rw [processImportsList_cons_other fs cfg ext fuel _ rest node
                  pf d sup st (fun s => by simp)] at h
                cases h
            | null =>
                rw [processImportsList_cons_other fs cfg ext fuel _ rest node
                  pf d sup st (fun s => by simp)] at h
                cases h
            | obj o =>
                rw [processImportsList_cons_other fs cfg ext fuel _ rest node
                  pf d sup st (fun s => by simp)] at h
                cases h
            | arr xs =>
                rw [processImportsList_cons_other fs cfg ext fuel _ rest node
                  pf d sup st (fun s => by simp)] at h
                cases h
            | secret t =>
                rw [processImportsList_cons_other fs cfg ext fuel _ rest node
                  pf d sup st (fun s => by simp)] at h
                cases h
      · intro entries pf d sup st r h hInv
        cases entries with
        | nil =>
            rw [processChildren_nil] at h
            cases h
            exact hInv
        | cons kv rest =>
            obtain ⟨k, v⟩ := kv
            cases v with
            | obj o =>
                rw [processChildren_cons_obj] at h
                obtain ⟨r1, hr1, h2⟩ := bindOk h
                obtain ⟨r2, hr2, h3⟩ := bindOk h2
                cases h3
                exact ihPC _ _ _ _ _ r2 hr2 (ihAI _ _ _ _ _ r1 hr1 hInv)
            | arr xs =>
                rw [processChildren_cons_arr] at h
                obtain ⟨r1, hr1, h2⟩ := bindOk h
                obtain ⟨r2, hr2, h3⟩ := bindOk h2
                cases h3
                exact ihPC _ _ _ _ _ r2 hr2 (ihPS _ _ _ _ _ r1 hr1 hInv)
            | str s =>
                rw [processChildren_cons_other fs cfg ext fuel k _ rest pf d
                  sup st (fun o => by simp) (fun xs => by simp)] at h
                obtain ⟨r2, hr2, h3⟩ := bindOk h
                cases h3
                exact ihPC _ _ _ _ _ r2 hr2 hInv
            | int n =>
                rw [processChildren_cons_other fs cfg ext fuel k _ rest pf d
                  sup st (fun o => by simp) (fun xs => by simp)] at h
                obtain ⟨r2, hr2, h3⟩ := bindOk h
                cases h3
                exact ihPC _ _ _ _ _ r2 hr2 hInv
            | bool b =>
                rw [processChildren_cons_other fs cfg ext fuel k _ rest pf d
                  sup st (fun o => by simp) (fun xs => by simp)] at h
                obtain ⟨r2, hr2, h3⟩ := bindOk h
                cases h3
                exact ihPC _ _ _ _ _ r2 hr2 hInv
            | null =>
                rw [processChildren_cons_other fs cfg ext fuel k _ rest pf d
                  sup st (fun o => by simp) (fun xs => by simp)] at h
                obtain ⟨r2, hr2, h3⟩ := bindOk h
                cases h3
                exact ihPC _ _ _ _ _ r2 hr2 hInv
            | secret t =>
                rw [processChildren_cons_other fs cfg ext fuel k _ rest pf d
                  sup st (fun o => by simp) (fun xs => by simp)] at h
                obtain ⟨r2, hr2, h3⟩ := bindOk h
                cases h3
                exact ihPC _ _ _ _ _ r2 hr2 hInv
      · intro xs pf d sup st r h hInv
        cases xs with
        | nil =>
            rw [processSeq_nil] at h
            cases h
            exact hInv
        | cons v rest =>
            cases v with
            | obj o =>
                rw [processSeq_cons_obj] at h
                obtain ⟨r1, hr1, h2⟩ := bindOk h
                obtain ⟨r2, hr2, h3⟩ := bindOk h2
                cases h3
                exact ihPS _ _ _ _ _ r2 hr2 (ihAI _ _ _ _ _ r1 hr1 hInv)
            | str s =>
                rw [processSeq_cons_other fs cfg ext fuel _ rest pf d sup st
                  (fun o => by simp)] at h
                obtain ⟨r2, hr2, h3⟩ := bindOk h
                cases h3
                exact ihPS _ _ _ _ _ r2 hr2 hInv
            | int n =>
                rw [processSeq_cons_other fs cfg ext fuel _ rest pf d sup st
                  (fun o => by simp)] at h
                obtain ⟨r2, hr2, h3⟩ := bindOk h
                cases h3
                exact ihPS _ _ _ _ _ r2 hr2 hInv
            | bool b =>
                rw [processSeq_cons_other fs cfg ext fuel _ rest pf d sup st
                  (fun o => by simp)] at h
                obtain ⟨r2, hr2, h3⟩ := bindOk h
                cases h3
                exact ihPS _ _ _ _ _ r2 hr2 hInv
            | null =>
                rw [processSeq_cons_other fs cfg ext fuel _ rest pf d sup st
                  (fun o => by simp)] at h
                obtain ⟨r2, hr2, h3⟩ := bindOk h
                cases h3
                exact ihPS _ _ _ _ _ r2 hr2 hInv
            | arr ys =>
                rw [processSeq_cons_other fs cfg ext fuel _ rest pf d sup st
                  (fun o => by simp)] at h
                obtain ⟨r2, hr2, h3⟩ := bindOk h
                cases h3
                exact ihPS _ _ _ _ _ r2 hr2 hInv
            | secret t =>
                rw [processSeq_cons_other fs cfg ext fuel _ rest pf d sup st
                  (fun o => by simp)] at h
                obtain ⟨r2, hr2, h3⟩ := bindOk h
                cases h3
                exact ihPS _ _ _ _ _ r2 hr2 hInv

/-- Loading a file and then recording it preserves the provenance
invariant (the order load uses for the base and profile files; imports
record first and load second, covered by tracesAgree_record_load). -/
theorem tracesAgree_load_record (fs : FS) (st : LoaderState)
    (path : List String) (ib : Option (List String)) (ik : Option String)
    (d : Nat) (h : tracesAgree fs st) :
    tracesAgree fs (recordImport (loadFile fs st path).2 path ib ik d) := by
  unfold tracesAgree at h ⊢
  unfold loadFile recordImport
  cases hf : fsLookup fs path with
  | none => simp [hf, h]
  | some o => simp [hf, h]

/-- The finalization steps return the loader state they were given. -/
theorem finalizeLoad_state (merged : Obj) (profile : String)
    (st0 : LoaderState) (tree : Obj) (st : LoaderState)
    (h : finalizeLoad merged profile st0 = .ok (tree, st)) : st = st0 := by
  unfold finalizeLoad at h
  obtain ⟨m2, _, h⟩ := bindOk h
  obtain ⟨m3, _, h⟩ := bindOk h
  obtain ⟨m4, _, h⟩ := bindOk h
  injection h with hp
  exact (congrArg Prod.snd hp).symm

/-- C6 (amended): for every completed load, the recorded sources list is
exactly the list of ImportTrace file values restricted to files that
exist on disk (hence the two sets are equal whenever the base file and
every imported file exist; a recorded file absent on disk, such as a
missing base file, appears in the trace but not in sources). -/
theorem c6_sources_equal_existing_trace_files (fs : FS) (cfg : List String)
    (profile ext : String) (fuel : Nat) (tree : Obj) (st : LoaderState)
    (h : load fs cfg profile ext fuel = .ok (tree, st)) :
    st.mergeTrace = (st.importTrace.map (fun e => e.file)).filter
      (fun p => (fsLookup fs p).isSome) := by
  simp only [load] at h
  obtain ⟨ai, hai, h⟩ := bindOk h
  have hstart : tracesAgree fs (recordImport
      (loadFile fs initState
        (normalizePath [] cfg ++ ["application." ++ ext])).2
      (normalizePath [] cfg ++ ["application." ++ ext]) none none 0) :=
    tracesAgree_load_record fs initState _ none none 0 rfl
  have hai2 := (tracesAgree_engine fs (normalizePath [] cfg) ext fuel).1
    _ _ _ _ _ _ hai hstart
  rcases hfs : fsLookup fs (normalizePath [] cfg
      ++ ["application-" ++ profile ++ "." ++ ext]) with _ | pd
  · rw [hfs] at h
    obtain ⟨pr, hpr, h⟩ := bindOk h
    cases hpr
    have hst := finalizeLoad_state _ _ _ _ _ h
    rw [hst]
    exact hai2
  · rw [hfs] at h
    obtain ⟨pr, hpr, h⟩ := bindOk h
    have hpl : tracesAgree fs (recordImport
        (loadFile fs ai.2 (normalizePath [] cfg
          ++ ["application-" ++ profile ++ "." ++ ext])).2
        (normalizePath [] cfg ++ ["application-" ++ profile ++ "." ++ ext])
        (some (normalizePath [] cfg ++ ["application." ++ ext]))
        (some ("application-" ++ profile ++ "." ++ ext)) 1) :=
      tracesAgree_load_record fs ai.2 _ _ _ 1 hai2
    have hpr2 := (tracesAgree_engine fs (normalizePath [] cfg) ext fuel).1
      _ _ _ _ _ _ hpr hpl
    have hst := finalizeLoad_state _ _ _ _ _ h
    rw [hst]
    exact hpr2

/-- The tree a dev load of fsNestedImport returns. -/
def nestedImportTree : Obj :=
  [("a", .obj [("b", .obj [("a", .obj [("b", .obj [("foo", .str "bar")])])])]),
   ("app", .obj [("profile", .str "dev")]),
   ("sprigconfig", .obj [("_meta", .obj
     [("profile", .str "dev"),
      ("sources", .arr [.str "/cfg/application.yml", .str "/cfg/y.yml"]),
      ("import_trace", .arr
        [.obj [("file", .str "/cfg/application.yml"),
           ("imported_by", .null), ("import_key", .null),
           ("depth", .int 0), ("order", .int 0)],
         .obj [("file", .str "/cfg/y.yml"),
           ("imported_by", .str "/cfg/application.yml"),
           ("import_key", .str "y"),
           ("depth", .int 1), ("order", .int 1)]])])])]

/-- The loader state a dev load of fsNestedImport ends in. -/
def nestedImportState : LoaderState :=
  ⟨[["cfg", "application.yml"], ["cfg", "y.yml"]],
   [⟨["cfg", "application.yml"], none, none, 0, 0⟩,
    ⟨["cfg", "y.yml"], some ["cfg", "application.yml"], some "y", 1, 1⟩],
   [["cfg", "y.yml"]], 2⟩

/-- Closed witness for C6: on a filesystem where the base file and the
imported file both exist, sources and the existing trace files coincide. -/
theorem c6_sources_equal_existing_trace_files_witness :
    nestedImportState.mergeTrace
      = (nestedImportState.importTrace.map (fun e => e.file)).filter
        (fun p => (fsLookup fsNestedImport p).isSome) :=
  c6_sources_equal_existing_trace_files fsNestedImport ["cfg"] "dev" "yml" 20
    nestedImportTree nestedImportState rfl

/-!
Sizes of trees, used for the fuel-sufficiency (termination) argument.
-/

mutual

def szVal : Val → Nat
  | .obj o => 1 + szObj o
  | .arr xs => 1 + szSeq xs
  | _ => 1

def szObj : Obj → Nat
  | [] => 0
  | (_, v) :: rest => 1 + szVal v + szObj rest

def szSeq : List Val → Nat
  | [] => 0
  | v :: rest => 1 + szVal v + szSeq rest

end

theorem szSeq_ge_len (xs : List Val) : xs.length ≤ szSeq xs := by
  induction xs with
  | nil => simp [szSeq]
  | cons v rest ih =>
      have := szVal v
      simp only [szSeq, List.length_cons]
      omega

theorem lookup_size (o : Obj) (k : String) (v : Val)
    (h : lookupObj o k = some v) : 1 + szVal v ≤ szObj o := by
  induction o with
  | nil => simp [lookupObj] at h
  | cons kv rest ih =>
      obtain ⟨k1, v1⟩ := kv
      by_cases h1 : k1 = k
      · simp only [lookupObj, h1, if_true, Option.some.injEq] at h
        subst h
        simp only [szObj]
        omega
      · simp only [lookupObj, h1, if_false] at h
        have := ih h
        simp only [szObj]
        omega

theorem removeKey_size_le (o : Obj) (k : String) :
    szObj (removeKey o k) ≤ szObj o := by
  induction o with
  | nil => simp [removeKey]
  | cons kv rest ih =>
      obtain ⟨k1, v1⟩ := kv
      by_cases h1 : k1 = k
      · simp only [removeKey, h1, if_true, szObj]
        omega
      · simp only [removeKey, h1, if_false, szObj]
        omega

theorem removeKey_size_lookup (o : Obj) (k : String) (v : Val)
    (h : lookupObj o k = some v) :
    szObj (removeKey o k) + 1 + szVal v ≤ szObj o := by
  induction o with
  | nil => simp [lookupObj] at h
  | cons kv rest ih =>
      obtain ⟨k1, v1⟩ := kv
      by_cases h1 : k1 = k
      · simp only [lookupObj, h1, if_true, Option.some.injEq] at h
        subst h
        simp only [removeKey, h1, if_true, szObj]
        have := removeKey_size_le rest k
        omega
      · simp only [lookupObj, h1, if_false] at h
        have := ih h
        simp only [removeKey, h1, if_false, szObj]
        omega

theorem setKey_size_none (o : Obj) (k : String) (v : Val)
    (h : lookupObj o k = none) :
    szObj (setKey o k v) = szObj o + 1 + szVal v := by
  induction o with
  | nil => simp [setKey, szObj]
  | cons kv rest ih =>
      obtain ⟨k1, v1⟩ := kv
      by_cases h1 : k1 = k
      · simp [lookupObj, h1] at h
      · simp only [lookupObj, h1, if_false] at h
        simp only [setKey, h1, if_false, szObj, ih h]
        omega

theorem setKey_size_some (o : Obj) (k : String) (v w : Val)
    (h : lookupObj o k = some w) :
    szObj (setKey o k v) + szVal w ≤ szObj o + szVal v := by
  induction o with
  | nil => simp [lookupObj] at h
  | cons kv rest ih =>
      obtain ⟨k1, v1⟩ := kv
      by_cases h1 : k1 = k
      · simp only [lookupObj, h1, if_true, Option.some.injEq] at h
        subst h
        simp only [setKey, h1, if_true, szObj]
        omega
      · simp only [lookupObj, h1, if_false] at h
        have := ih h
        simp only [setKey, h1, if_false, szObj]
        omega

theorem mergeKey_eq_setKey (base : Obj) (k : String) (v : Val)
    (h : ∀ om, v ≠ .obj om) : mergeKey base k v = setKey base k v := by
  cases v with
  | obj om => exact absurd rfl (h om)
  | str s => rfl
  | int n => rfl
  | bool b => rfl
  | null => rfl
  | arr xs => rfl
  | secret t => rfl

theorem mergeKey_obj_not_mapping (base : Obj) (k : String) (om : Obj)
    (h : ∀ bm, lookupObj base k ≠ some (.obj bm)) :
    mergeKey base k (.obj om) = setKey base k (.obj om) := by
  cases hlk : lookupObj base k with
  | none => simp [mergeKey, hlk]
  | some w =>
      cases w with
      | obj bm => exact absurd hlk (h bm)
      | str s => simp [mergeKey, hlk]
      | int n => simp [mergeKey, hlk]
      | bool b => simp [mergeKey, hlk]
      | null => simp [mergeKey, hlk]
      | arr xs => simp [mergeKey, hlk]
      | secret t => simp [mergeKey, hlk]

theorem szVal_pos (v : Val) : 1 ≤ szVal v := by
  cases v <;> simp [szVal]

theorem setKey_size (o : Obj) (k : String) (v : Val) :
    szObj (setKey o k v) ≤ szObj o + 1 + szVal v := by
  cases hlk : lookupObj o k with
  | none =>
      rw [setKey_size_none o k v hlk]
  | some w =>
      have h1 := setKey_size_some o k v w hlk
      have h2 := szVal_pos w
      omega

theorem mergeKey_size (base : Obj) (k : String) (v : Val) :
    szObj (mergeKey base k v) ≤ szObj base + 1 + szVal v := by
  refine mergeKey.induct
    (fun base override => szObj (deep_merge base override) ≤ szObj base + szObj override)
    (fun base k v => szObj (mergeKey base k v) ≤ szObj base + 1 + szVal v)
    ?_ ?_ ?_ ?_ ?_ base k v
  · intro base k2 om bm hlk ih
    simp only [mergeKey, hlk]
    have h1 := setKey_size_some base k2 (.obj (deep_merge bm om)) (.obj bm) hlk
    have h2 : szVal (Val.obj (deep_merge bm om)) = 1 + szObj (deep_merge bm om) := rfl
    have h3 : szVal (Val.obj bm) = 1 + szObj bm := rfl
    have h4 : szVal (Val.obj om) = 1 + szObj om := rfl
    omega
  · intro base k2 om hno
    rw [mergeKey_obj_not_mapping base k2 om
      (fun bm hh => (hno bm hh).elim)]
    exact setKey_size base k2 (.obj om)
  · intro base k2 v2 hno
    rw [mergeKey_eq_setKey base k2 v2 (fun om hh => (hno om hh).elim)]
    exact setKey_size base k2 v2
  · intro base
    simp [deep_merge]
  · intro base k2 v2 rest ih1 ih2
    simp only [deep_merge]
    have h3 : szObj ((k2, v2) :: rest) = 1 + szVal v2 + szObj rest := rfl
    omega

theorem deep_merge_size (base override : Obj) :
    szObj (deep_merge base override) ≤ szObj base + szObj override := by
  induction override generalizing base with
  | nil => simp [deep_merge]
  | cons kv rest ih =>
      obtain ⟨k, v⟩ := kv
      simp only [deep_merge]
      have h1 := ih (mergeKey base k v)
      have h2 := mergeKey_size base k v
      have h3 : szObj ((k, v) :: rest) = 1 + szVal v + szObj rest := rfl
      omega

/-- The termination potential: total size (plus overhead) of the
filesystem entries whose paths are not yet in the visited set.  Every
single import of an existing unvisited file pays for its whole content. -/
def unseenWeight : FS → List (List String) → Nat
  | [], _ => 0
  | (p, o) :: rest, seen =>
      (if p ∈ seen then 0 else szObj o + 3) + unseenWeight rest seen

theorem unseenWeight_add (fs : FS) (seen : List (List String))
    (p : List String) :
    unseenWeight fs (seen ++ [p]) ≤ unseenWeight fs seen := by
  induction fs with
  | nil => simp [unseenWeight]
  | cons e rest ih =>
      obtain ⟨q, o⟩ := e
      simp only [unseenWeight]
      by_cases hq : q ∈ seen
      · simp [hq, List.mem_append, ih]
      · by_cases hq2 : q ∈ seen ++ [p]
        · simp only [hq, hq2, if_true, if_false]
          omega
        · simp only [hq, hq2, if_true, if_false]
          omega

theorem unseenWeight_drop (fs : FS) (seen : List (List String))
    (p : List String) (o : Obj) (hp : ¬ p ∈ seen)
    (hf : fsLookup fs p = some o) :
    unseenWeight fs (seen ++ [p]) + szObj o + 3 ≤ unseenWeight fs seen := by
  induction fs with
  | nil => simp [fsLookup] at hf
  | cons e rest ih =>
      obtain ⟨q, w⟩ := e
      by_cases hq : q = p
      · subst hq
        simp only [fsLookup, if_true] at hf
        cases hf
        simp only [unseenWeight, hp, if_false]
        have h1 : q ∈ seen ++ [q] := by simp
        simp only [h1, if_true]
        have := unseenWeight_add rest seen q
        omega
      · simp only [fsLookup, hq, if_false] at hf
        have := ih hf
        simp only [unseenWeight]
        by_cases hqs : q ∈ seen
        · have : q ∈ seen ++ [p] := by simp [hqs]
          simp only [hqs, this, if_true]
          omega
        · have hq2 : ¬ q ∈ seen ++ [p] := by
            simp only [List.mem_append, List.mem_singleton]
            rintro (h | h)
            · exact hqs h
            · exact hq h
          simp only [hqs, hq2, if_false]
          omega

theorem unseenWeight_lookup (fs : FS) (p : List String) (o : Obj)
    (hf : fsLookup fs p = some o) :
    szObj o + 3 ≤ unseenWeight fs [] := by
  induction fs with
  | nil => simp [fsLookup] at hf
  | cons e rest ih =>
      obtain ⟨q, w⟩ := e
      by_cases hq : q = p
      · subst hq
        simp only [fsLookup, if_true] at hf
        cases hf
        simp only [unseenWeight, List.not_mem_nil, if_false]
        omega
      · simp only [fsLookup, hq, if_false] at hf
        have := ih hf
        simp only [unseenWeight, List.not_mem_nil, if_false]
        omega

/-- Amortized size bound for the import walk: along every successful
loop, the size of the produced tree plus the weight of the still-unseen
files never exceeds the size of the input tree plus the weight before;
every merged-in import is paid for by its file leaving the unseen set. -/
theorem engine_amortized (fs : FS) (cfg : List String) (ext : String) :
    ∀ fuel : Nat,
    (∀ node pf d sup st r,
        applyImports fs cfg ext fuel node pf d sup st = .ok r →
        szObj r.1 + unseenWeight fs r.2.seenImports
          ≤ szObj node + unseenWeight fs st.seenImports)
    ∧ (∀ items node pf d sup st r,
        processImportsList fs cfg ext fuel items node pf d sup st = .ok r →
        szObj r.1 + unseenWeight fs r.2.seenImports
          ≤ szObj node + unseenWeight fs st.seenImports)
    ∧ (∀ entries pf d sup st r,
        processChildren fs cfg ext fuel entries pf d sup st = .ok r →
        szObj r.1 + unseenWeight fs r.2.seenImports
          ≤ szObj entries + unseenWeight fs st.seenImports)
    ∧ (∀ xs pf d sup st r,
        processSeq fs cfg ext fuel xs pf d sup st = .ok r →
        szSeq r.1 + unseenWeight fs r.2.seenImports
          ≤ szSeq xs + unseenWeight fs st.seenImports) := by
  intro fuel
  induction fuel with
  | zero =>
      refine ⟨?_, ?_, ?_, ?_⟩
      · intro node pf d sup st r h
        rw [applyImports_zero] at h
        cases h
      · intro items node pf d sup st r h
        rw [processImportsList_zero] at h
        cases h
      · intro entries pf d sup st r h
        rw [processChildren_zero] at h
        cases h
      · intro xs pf d sup st r h
        rw [processSeq_zero] at h
        cases h
  | succ fuel ih =>
      obtain ⟨ihAI, ihPL, ihPC, ihPS⟩ := ih
      refine ⟨?_, ?_, ?_, ?_⟩
      · intro node pf d sup st r h
        rw [applyImports_succ] at h
        rcases hlk : lookupObj node "imports" with _ | v
        · rw [hlk] at h
          exact ihPC _ _ _ _ _ _ h
        · rw [hlk] at h
          cases v with
          | arr items =>
              obtain ⟨pr, hpr, h2⟩ := bindOk h
              have h3 := ihPL _ _ _ _ _ _ _ hpr
              have h4 := ihPC _ _ _ _ _ _ h2
              have h5 := removeKey_size_le node "imports"
              omega
          | str s =>
              have h4 := ihPC _ _ _ _ _ _ h
              have h5 := removeKey_size_le node "imports"
              omega
          | int n =>
              have h4 := ihPC _ _ _ _ _ _ h
              have h5 := removeKey_size_le node "imports"
              omega
          | bool b =>
              have h4 := ihPC _ _ _ _ _ _ h
              have h5 := removeKey_size_le node "imports"
              omega
          | null =>
              have h4 := ihPC _ _ _ _ _ _ h
              have h5 := removeKey_size_le node "imports"
              omega
          | obj o =>
              have h4 := ihPC _ _ _ _ _ _ h
              have h5 := removeKey_size_le node "imports"
              omega
          | secret t =>
              have h4 := ihPC _ _ _ _ _ _ h
              have h5 := removeKey_size_le node "imports"
              omega
      · intro items node pf d sup st r h
        cases items with
        | nil =>
            rw [processImportsList_nil] at h
            cases h
            simp
        | cons item rest =>
            cases item with
            | str key =>
                rw [processImportsList_cons_str] at h
                obtain ⟨imp, himp, h2⟩ := bindOk h
                by_cases hseen : imp ∈ st.seenImports
                · rw [if_pos hseen] at h2
                  cases h2
                · rw [if_neg hseen] at h2
                  obtain ⟨res, hres, h3⟩ := bindOk h2
                  have hPLrest := ihPL _ _ _ _ _ _ _ h3
                  have hAIres := ihAI _ _ _ _ _ _ hres
                  have hmrg := deep_merge_size node res.1
                  cases hf : fsLookup fs imp with
                  | none =>
                      simp only [loadFile, hf, recordImport] at hres hAIres
                      have hU := unseenWeight_add fs st.seenImports imp
                      simp only [szObj] at hAIres
                      omega
                  | some o =>
                      simp only [loadFile, hf, recordImport] at hres hAIres
                      have hU := unseenWeight_drop fs st.seenImports imp o
                        hseen hf
                      omega
            | int n =>
                rw [processImportsList_cons_other fs cfg ext fuel _ rest node
                  pf d sup st (fun s => by simp)] at h
                cases h
            | bool b =>
                rw [processImportsList_cons_other fs cfg ext fuel _ rest node
                  pf d sup st (fun s => by simp)] at h
                cases h
            | null =>
                rw [processImportsList_cons_other fs cfg ext fuel _ rest node
                  pf d sup st (fun s => by simp)] at h
                cases h
            | obj o =>
                rw [processImportsList_cons_other fs cfg ext fuel _ rest node
                  pf d sup st (fun s => by simp)] at h
                cases h
            | arr xs =>
                rw [processImportsList_cons_other fs cfg ext fuel _ rest node
                  pf d sup st (fun s => by simp)] at h
                cases h
            | secret t =>
                rw [processImportsList_cons_other fs cfg ext fuel _ rest node
                  pf d sup st (fun s => by simp)] at h
                cases h
      · intro entries pf d sup st r h
        cases entries with
        | nil =>
            rw [processChildren_nil] at h
            cases h
            simp [szObj]
        | cons kv rest =>
            obtain ⟨k, v⟩ := kv
            cases v with
            | obj o =>
                rw [processChildren_cons_obj] at h
                obtain ⟨r1, hr1, h2⟩ := bindOk h
                obtain ⟨r2, hr2, h3⟩ := bindOk h2
                cases h3
                have hA := ihAI _ _ _ _ _ _ hr1
                have hC := ihPC _ _ _ _ _ _ hr2
                simp only [szObj, szVal]
                omega
            | arr xs =>
                rw [processChildren_cons_arr] at h
                obtain ⟨r1, hr1, h2⟩ := bindOk h
                obtain ⟨r2, hr2, h3⟩ := bindOk h2
                cases h3
                have hA := ihPS _ _ _ _ _ _ hr1
                have hC := ihPC _ _ _ _ _ _ hr2
                simp only [szObj, szVal]
                omega
            | str s =>
                rw [processChildren_cons_other fs cfg ext fuel k _ rest pf d
                  sup st (fun o => by simp) (fun xs => by simp)] at h
                obtain ⟨r2, hr2, h3⟩ := bindOk h
                cases h3
                have hC := ihPC _ _ _ _ _ _ hr2
                simp only [szObj]
                omega
            | int n =>
                rw [processChildren_cons_other fs cfg ext fuel k _ rest pf d
                  sup st (fun o => by simp) (fun xs => by simp)] at h
                obtain ⟨r2, hr2, h3⟩ := bindOk h
                cases h3
                have hC := ihPC _ _ _ _ _ _ hr2
                simp only [szObj]
                omega
            | bool b =>
                rw [processChildren_cons_other fs cfg ext fuel k _ rest pf d
                  sup st (fun o => by simp) (fun xs => by simp)] at h
                obtain ⟨r2, hr2, h3⟩ := bindOk h
                cases h3
                have hC := ihPC _ _ _ _ _ _ hr2
                simp only [szObj]
                omega
            | null =>
                rw [processChildren_cons_other fs cfg ext fuel k _ rest pf d
                  sup st (fun o => by simp) (fun xs => by simp)] at h
                obtain ⟨r2, hr2, h3⟩ := bindOk h
                cases h3
                have hC := ihPC _ _ _ _ _ _ hr2
                simp only [szObj]
                omega
            | secret t =>
                rw [processChildren_cons_other fs cfg ext fuel k _ rest pf d
                  sup st (fun o => by simp) (fun xs => by simp)] at h
                obtain ⟨r2, hr2, h3⟩ := bindOk h
                cases h3
                have hC := ihPC _ _ _ _ _ _ hr2
                simp only [szObj]
                omega
      · intro xs pf d sup st r h
        cases xs with
        | nil =>
            rw [processSeq_nil] at h
            cases h
            simp [szSeq]
        | cons v rest =>
            cases v with
            | obj o =>
                rw [processSeq_cons_obj] at h
                obtain ⟨r1, hr1, h2⟩ := bindOk h
                obtain ⟨r2, hr2, h3⟩ := bindOk h2
                cases h3
                have hA := ihAI _ _ _ _ _ _ hr1
                have hC := ihPS _ _ _ _ _ _ hr2
                simp only [szSeq, szVal]
                omega
            | str s =>
                rw [processSeq_cons_other fs cfg ext fuel _ rest pf d sup st
                  (fun o => by simp)] at h
                obtain ⟨r2, hr2, h3⟩ := bindOk h
                cases h3
                have hC := ihPS _ _ _ _ _ _ hr2
                simp only [szSeq]
                omega
            | int n =>
                rw [processSeq_cons_other fs cfg ext fuel _ rest pf d sup st
                  (fun o => by simp)] at h
                obtain ⟨r2, hr2, h3⟩ := bindOk h
                cases h3
                have hC := ihPS _ _ _ _ _ _ hr2
                simp only [szSeq]
                omega
            | bool b =>
                rw [processSeq_cons_other fs cfg ext fuel _ rest pf d sup st
                  (fun o => by simp)] at h
                obtain ⟨r2, hr2, h3⟩ := bindOk h
                cases h3
                have hC := ihPS _ _ _ _ _ _ hr2
                simp only [szSeq]
                omega
            | null =>
                rw [processSeq_cons_other fs cfg ext fuel _ rest pf d sup st
                  (fun o => by simp)] at h
                obtain ⟨r2, hr2, h3⟩ := bindOk h
                cases h3
                have hC := ihPS _ _ _ _ _ _ hr2
                simp only [szSeq]
                omega
            | arr ys =>
                rw [processSeq_cons_other fs cfg ext fuel _ rest pf d sup st
                  (fun o => by simp)] at h
                obtain ⟨r2, hr2, h3⟩ := bindOk h
                cases h3
                have hC := ihPS _ _ _ _ _ _ hr2
                simp only [szSeq]
                omega
            | secret t =>
                rw [processSeq_cons_other fs cfg ext fuel _ rest pf d sup st
                  (fun o => by simp)] at h
                obtain ⟨r2, hr2, h3⟩ := bindOk h
                cases h3
                have hC := ihPS _ _ _ _ _ _ hr2
                simp only [szSeq]
                omega

/-- An error produced by a call known not to report fuel exhaustion is
not the fuel marker, whatever context it is re-raised in. -/
theorem ne_fuelOut_propagate {α β : Type} {e : LoadErr} {x : Except LoadErr α}
    (hx : x = .error e) (hne : x ≠ .error .fuelOut) :
    (Except.error e : Except LoadErr β) ≠ .error .fuelOut := by
  intro hcon
  injection hcon with h1
  exact hne (by rw [hx, h1])

/-- Fuel sufficiency: with fuel at least the size of the node plus the
weight of the unseen files (plus small constants), no loop of the import
walk reports fuel exhaustion; this is the termination argument of
_apply_imports_recursive, with the visited set bounding the file
recursion. -/
theorem engine_sufficient (fs : FS) (cfg : List String) (ext : String) :
    ∀ fuel : Nat,
    (∀ node pf d sup st,
        szObj node + unseenWeight fs st.seenImports + 2 ≤ fuel →
        applyImports fs cfg ext fuel node pf d sup st ≠ .error .fuelOut)
    ∧ (∀ items node pf d sup st,
        items.length + szObj node + unseenWeight fs st.seenImports + 2 ≤ fuel →
        processImportsList fs cfg ext fuel items node pf d sup st
          ≠ .error .fuelOut)
    ∧ (∀ entries pf d sup st,
        szObj entries + unseenWeight fs st.seenImports + 1 ≤ fuel →
        processChildren fs cfg ext fuel entries pf d sup st ≠ .error .fuelOut)
    ∧ (∀ xs pf d sup st,
        szSeq xs + unseenWeight fs st.seenImports + 1 ≤ fuel →
        processSeq fs cfg ext fuel xs pf d sup st ≠ .error .fuelOut) := by
  intro fuel
  induction fuel with
  | zero =>
      refine ⟨?_, ?_, ?_, ?_⟩
      · intro node pf d sup st hreq
        omega
      · intro items node pf d sup st hreq
        omega
      · intro entries pf d sup st hreq
        omega
      · intro xs pf d sup st hreq
        omega
  | succ fuel ih =>
      obtain ⟨ihAI, ihPL, ihPC, ihPS⟩ := ih
      have amort := engine_amortized fs cfg ext fuel
      refine ⟨?_, ?_, ?_, ?_⟩
      · intro node pf d sup st hreq
        rw [applyImports_succ]
        rcases hlk : lookupObj node "imports" with _ | v
        · exact ihPC node pf d sup st (by omega)
        · have hsz := lookup_size node "imports" v hlk
          have hrm := removeKey_size_lookup node "imports" v hlk
          cases v with
          | arr items =>
              have hlen := szSeq_ge_len items
              have hv : szVal (Val.arr items) = 1 + szSeq items := rfl
              cases hPL : processImportsList fs cfg ext fuel items
                  (removeKey node "imports") pf d sup st with
              | error e =>
                  simp only [hPL, Bind.bind, Except.bind]
                  exact ne_fuelOut_propagate hPL
                    (ihPL items (removeKey node "imports") pf d sup st
                      (by omega))
              | ok pr =>
                  simp only [hPL, Bind.bind, Except.bind]
                  have hA := amort.2.1 items (removeKey node "imports")
                    pf d sup st pr hPL
                  exact ihPC pr.1 pf d sup pr.2 (by omega)
          | str s =>
              exact ihPC (removeKey node "imports") pf d sup st (by
                have : szVal (Val.str s) = 1 := rfl
                omega)
          | int n =>
              exact ihPC (removeKey node "imports") pf d sup st (by
                have : szVal (Val.int n) = 1 := rfl
                omega)
          | bool b =>
              exact ihPC (removeKey node "imports") pf d sup st (by
                have : szVal (Val.bool b) = 1 := rfl
                omega)
          | null =>
              exact ihPC (removeKey node "imports") pf d sup st (by
                have : szVal Val.null = 1 := rfl
                omega)
          | obj o =>
              exact ihPC (removeKey node "imports") pf d sup st (by
                have : szVal (Val.obj o) = 1 + szObj o := rfl
                omega)
          | secret t =>
              exact ihPC (removeKey node "imports") pf d sup st (by
                have : szVal (Val.secret t) = 1 := rfl
                omega)
      · intro items node pf d sup st hreq
        cases items with
        | nil =>
            rw [processImportsList_nil]
            simp
        | cons item rest =>
            cases item with
            | str key =>
                rw [processImportsList_cons_str]
                cases himp : resolveImport cfg ext key with
                | error e =>
                    simp only [himp, Bind.bind, Except.bind]
                    intro hcon
                    injection hcon with h1
                    unfold resolveImport at himp
                    split at himp
                    · cases himp
                    · injection himp with h2
                      rw [← h2] at h1
                      cases h1
                | ok imp =>
                    simp only [himp, Bind.bind, Except.bind]
                    by_cases hseen : imp ∈ st.seenImports
                    · rw [if_pos hseen]
                      simp
                    · rw [if_neg hseen]
                      have hlen : (Val.str key :: rest).length
                          = rest.length + 1 := rfl
                      cases hf : fsLookup fs imp with
                      | none =>
                          have hU := unseenWeight_add fs st.seenImports imp
                          simp only [loadFile, hf, recordImport]
                          cases hAI : applyImports fs cfg ext fuel [] imp
                              (d + 1) sup
                              { mergeTrace := st.mergeTrace,
                                importTrace := st.importTrace ++ [⟨imp, some pf, some key, d + 1, st.order⟩],
                                seenImports := st.seenImports ++ [imp],
                                order := st.order + 1 } with
                          | error e =>
                              simp only [hAI, Bind.bind, Except.bind]
                              exact ne_fuelOut_propagate hAI
                                (ihAI [] imp (d + 1) sup _ (by
                                  dsimp only
                                  simp only [szObj]
                                  omega))
                          | ok res =>
                              simp only [hAI, Bind.bind, Except.bind]
                              have hA := amort.1 [] imp (d + 1) sup _ res hAI
                              have hmrg := deep_merge_size node res.1
                              dsimp only at hA
                              simp only [szObj] at hA
                              exact ihPL rest (deep_merge node res.1) pf d sup
                                res.2 (by omega)
                      | some o =>
                          have hU := unseenWeight_drop fs st.seenImports imp o
                            hseen hf
                          simp only [loadFile, hf, recordImport]
                          cases hAI : applyImports fs cfg ext fuel o imp
                              (d + 1) sup
                              { mergeTrace := st.mergeTrace ++ [imp],
                                importTrace := st.importTrace ++ [⟨imp, some pf, some key, d + 1, st.order⟩],
                                seenImports := st.seenImports ++ [imp],
                                order := st.order + 1 } with
                          | error e =>
                              simp only [hAI, Bind.bind, Except.bind]
                              exact ne_fuelOut_propagate hAI
                                (ihAI o imp (d + 1) sup _ (by
                                  dsimp only
                                  omega))
                          | ok res =>
                              simp only [hAI, Bind.bind, Except.bind]
                              have hA := amort.1 o imp (d + 1) sup _ res hAI
                              have hmrg := deep_merge_size node res.1
                              dsimp only at hA
                              exact ihPL rest (deep_merge node res.1) pf d sup
                                res.2 (by omega)
            | int n =>
                rw [processImportsList_cons_other fs cfg ext fuel _ rest node
                  pf d sup st (fun s => by simp)]
                simp
            | bool b =>
                rw [processImportsList_cons_other fs cfg ext fuel _ rest node
                  pf d sup st (fun s => by simp)]
                simp
            | null =>
                rw [processImportsList_cons_other fs cfg ext fuel _ rest node
                  pf d sup st (fun s => by simp)]
                simp
            | obj o =>
                rw [processImportsList_cons_other fs cfg ext fuel _ rest node
                  pf d sup st (fun s => by simp)]
                simp
            | arr xs =>
                rw [processImportsList_cons_other fs cfg ext fuel _ rest node
                  pf d sup st (fun s => by simp)]
                simp
            | secret t =>
                rw [processImportsList_cons_other fs cfg ext fuel _ rest node
                  pf d sup st (fun s => by simp)]
                simp
      · intro entries pf d sup st hreq
        cases entries with
        | nil =>
            rw [processChildren_nil]
            simp
        | cons kv rest =>
            obtain ⟨k, v⟩ := kv
            have hsz : szObj ((k, v) :: rest) = 1 + szVal v + szObj rest := rfl
            cases v with
            | obj o =>
                rw [processChildren_cons_obj]
                have hv : szVal (Val.obj o) = 1 + szObj o := rfl
                cases hAI : applyImports fs cfg ext fuel o pf d sup st with
                | error e =>
                    simp only [hAI, Bind.bind, Except.bind]
                    exact ne_fuelOut_propagate hAI
                      (ihAI o pf d sup st (by omega))
                | ok r1 =>
                    simp only [hAI, Bind.bind, Except.bind]
                    have hA := amort.1 o pf d sup st r1 hAI
                    cases hC : processChildren fs cfg ext fuel rest pf d sup
                        r1.2 with
                    | error e =>
                        simp only [hC, Bind.bind, Except.bind]
                        exact ne_fuelOut_propagate hC
                          (ihPC rest pf d sup r1.2 (by omega))
                    | ok r2 =>
                        simp only [hC, Bind.bind, Except.bind]
                        simp
            | arr xs =>
                rw [processChildren_cons_arr]
                have hv : szVal (Val.arr xs) = 1 + szSeq xs := rfl
                cases hAI : processSeq fs cfg ext fuel xs pf d sup st with
                | error e =>
                    simp only [hAI, Bind.bind, Except.bind]
                    exact ne_fuelOut_propagate hAI
                      (ihPS xs pf d sup st (by omega))
                | ok r1 =>
                    simp only [hAI, Bind.bind, Except.bind]
                    have hA := amort.2.2.2 xs pf d sup st r1 hAI
                    cases hC : processChildren fs cfg ext fuel rest pf d sup
                        r1.2 with
                    | error e =>
                        simp only [hC, Bind.bind, Except.bind]
                        exact ne_fuelOut_propagate hC
                          (ihPC rest pf d sup r1.2 (by omega))
                    | ok r2 =>
                        simp only [hC, Bind.bind, Except.bind]
                        simp
            | str s =>
                rw [processChildren_cons_other fs cfg ext fuel k _ rest pf d
                  sup st (fun o => by simp) (fun xs => by simp)]
                have hv : szVal (Val.str s) = 1 := rfl
                cases hC : processChildren fs cfg ext fuel rest pf d sup st with
                | error e =>
                    simp only [hC, Bind.bind, Except.bind]
                    exact ne_fuelOut_propagate hC
                      (ihPC rest pf d sup st (by omega))
                | ok r2 =>
                    simp only [hC, Bind.bind, Except.bind]
                    simp
            | int n =>
                rw [processChildren_cons_other fs cfg ext fuel k _ rest pf d
                  sup st (fun o => by simp) (fun xs => by simp)]
                have hv : szVal (Val.int n) = 1 := rfl
                cases hC : processChildren fs cfg ext fuel rest pf d sup st with
                | error e =>
                    simp only [hC, Bind.bind, Except.bind]
                    exact ne_fuelOut_propagate hC
                      (ihPC rest pf d sup st (by omega))
                | ok r2 =>
                    simp only [hC, Bind.bind, Except.bind]
                    simp
            | bool b =>
                rw [processChildren_cons_other fs cfg ext fuel k _ rest pf d
                  sup st (fun o => by simp) (fun xs => by simp)]
                have hv : szVal (Val.bool b) = 1 := rfl
                cases hC : processChildren fs cfg ext fuel rest pf d sup st with
                | error e =>
                    simp only [hC, Bind.bind, Except.bind]
                    exact ne_fuelOut_propagate hC
                      (ihPC rest pf d sup st (by omega))
                | ok r2 =>
                    simp only [hC, Bind.bind, Except.bind]
                    simp
            | null =>
                rw [processChildren_cons_other fs cfg ext fuel k _ rest pf d
                  sup st (fun o => by simp) (fun xs => by simp)]
                have hv : szVal Val.null = 1 := rfl
                cases hC : processChildren fs cfg ext fuel rest pf d sup st with
                | error e =>
                    simp only [hC, Bind.bind, Except.bind]
                    exact ne_fuelOut_propagate hC
                      (ihPC rest pf d sup st (by omega))
                | ok r2 =>
                    simp only [hC, Bind.bind, Except.bind]
                    simp
            | secret t =>
                rw [processChildren_cons_other fs cfg ext fuel k _ rest pf d
                  sup st (fun o => by simp) (fun xs => by simp)]
                have hv : szVal (Val.secret t) = 1 := rfl
                cases hC : processChildren fs cfg ext fuel rest pf d sup st with
                | error e =>
                    simp only [hC, Bind.bind, Except.bind]
                    exact ne_fuelOut_propagate hC
                      (ihPC rest pf d sup st (by omega))
                | ok r2 =>
                    simp only [hC, Bind.bind, Except.bind]
                    simp
      · intro xs pf d sup st hreq
        cases xs with
        | nil =>
            rw [processSeq_nil]
            simp
        | cons v rest =>
            have hsz : szSeq (v :: rest) = 1 + szVal v + szSeq rest := rfl
            cases v with
            | obj o =>
                rw [processSeq_cons_obj]
                have hv : szVal (Val.obj o) = 1 + szObj o := rfl
                cases hAI : applyImports fs cfg ext fuel o pf d sup st with
                | error e =>
                    simp only [hAI, Bind.bind, Except.bind]
                    exact ne_fuelOut_propagate hAI
                      (ihAI o pf d sup st (by omega))
                | ok r1 =>
                    simp only [hAI, Bind.bind, Except.bind]
                    have hA := amort.1 o pf d sup st r1 hAI
                    cases hC : processSeq fs cfg ext fuel rest pf d sup
                        r1.2 with
                    | error e =>
                        simp only [hC, Bind.bind, Except.bind]
                        exact ne_fuelOut_propagate hC
                          (ihPS rest pf d sup r1.2 (by omega))
                    | ok r2 =>
                        simp only [hC, Bind.bind, Except.bind]
                        simp
            | str s =>
                rw [processSeq_cons_other fs cfg ext fuel _ rest pf d sup st
                  (fun o => by simp)]
                have hv : szVal (Val.str s) = 1 := rfl
                cases hC : processSeq fs cfg ext fuel rest pf d sup st with
                | error e =>
                    simp only [hC, Bind.bind, Except.bind]
                    exact ne_fuelOut_propagate hC
                      (ihPS rest pf d sup st (by omega))
                | ok r2 =>
                    simp only [hC, Bind.bind, Except.bind]
                    simp
            | int n =>
                rw [processSeq_cons_other fs cfg ext fuel _ rest pf d sup st
                  (fun o => by simp)]
                have hv : szVal (Val.int n) = 1 := rfl
                cases hC : processSeq fs cfg ext fuel rest pf d sup st with
                | error e =>
                    simp only [hC, Bind.bind, Except.bind]
                    exact ne_fuelOut_propagate hC
                      (ihPS rest pf d sup st (by omega))
                | ok r2 =>
                    simp only [hC, Bind.bind, Except.bind]
                    simp
            | bool b =>
                rw [processSeq_cons_other fs cfg ext fuel _ rest pf d sup st
                  (fun o => by simp)]
                have hv : szVal (Val.bool b) = 1 := rfl
                cases hC : processSeq fs cfg ext fuel rest pf d sup st with
                | error e =>
                    simp only [hC, Bind.bind, Except.bind]
                    exact ne_fuelOut_propagate hC
                      (ihPS rest pf d sup st (by omega))
                | ok r2 =>
                    simp only [hC, Bind.bind, Except.bind]
                    simp
            | null =>
                rw [processSeq_cons_other fs cfg ext fuel _ rest pf d sup st
                  (fun o => by simp)]
                have hv : szVal Val.null = 1 := rfl
                cases hC : processSeq fs cfg ext fuel rest pf d sup st with
                | error e =>
                    simp only [hC, Bind.bind, Except.bind]
                    exact ne_fuelOut_propagate hC
                      (ihPS rest pf d sup st (by omega))
                | ok r2 =>
                    simp only [hC, Bind.bind, Except.bind]
                    simp
            | arr ys =>
                rw [processSeq_cons_other fs cfg ext fuel _ rest pf d sup st
                  (fun o => by simp)]
                have hv : szVal (Val.arr ys) = 1 + szSeq ys := rfl
                cases hC : processSeq fs cfg ext fuel rest pf d sup st with
                | error e =>
                    simp only [hC, Bind.bind, Except.bind]
                    exact ne_fuelOut_propagate hC
                      (ihPS rest pf d sup st (by omega))
                | ok r2 =>
                    simp only [hC, Bind.bind, Except.bind]
                    simp
            | secret t =>
                rw [processSeq_cons_other fs cfg ext fuel _ rest pf d sup st
                  (fun o => by simp)]
                have hv : szVal (Val.secret t) = 1 := rfl
                cases hC : processSeq fs cfg ext fuel rest pf d sup st with
                | error e =>
                    simp only [hC, Bind.bind, Except.bind]
                    exact ne_fuelOut_propagate hC
                      (ihPS rest pf d sup st (by omega))
                | ok r2 =>
                    simp only [hC, Bind.bind, Except.bind]
                    simp

/-- The app-profile step never reports fuel exhaustion. -/
theorem setAppProfile_ne_fuelOut (m : Obj) (p : String) :
    setAppProfile m p ≠ .error .fuelOut := by
  unfold setAppProfile
  cases hlk : lookupObj m "app" with
  | none => simp
  | some v => cases v <;> simp

/-- Metadata injection never reports fuel exhaustion. -/
theorem setdefaultObj_ne_fuelOut (o : Obj) (k : String) (e : LoadErr)
    (h : setdefaultObj o k = .error e) : e ≠ .fuelOut := by
  unfold setdefaultObj at h
  rcases hlk : lookupObj o k with _ | v
  · rw [hlk] at h
    cases h
  · rw [hlk] at h
    cases v <;> cases h <;> simp

theorem injectMetadata_ne_fuelOut (m : Obj) (p : String) (st : LoaderState) :
    injectMetadata m p st ≠ .error .fuelOut := by
  unfold injectMetadata
  cases h1 : setdefaultObj m "sprigconfig" with
  | error e =>
      simp only [h1, Bind.bind, Except.bind]
      have := setdefaultObj_ne_fuelOut m "sprigconfig" e h1
      simp [this]
  | ok node =>
      simp only [h1, Bind.bind, Except.bind]
      cases h2 : setdefaultObj node "_meta" with
      | error e =>
          simp only [h2, Bind.bind, Except.bind]
          have := setdefaultObj_ne_fuelOut node "_meta" e h2
          simp [this]
      | ok meta => simp

/-- The secret pass never reports fuel exhaustion (its only error is the
TypeError of the LazySecret call). -/
theorem injectSecrets_ne_fuelOut (key : Option String) (o : Obj) :
    injectSecrets key o ≠ .error .fuelOut := by
  refine injectSecrets.induct key
    (fun o => injectSecrets key o ≠ .error .fuelOut)
    (fun v => injectSecretsEntry key v ≠ .error .fuelOut)
    (fun xs => injectSecretsSeq key xs ≠ .error .fuelOut)
    (fun v => injectSecretsItem key v ≠ .error .fuelOut)
    ?_ ?_ ?_ ?_ ?_ ?_ ?_ ?_ ?_ ?_ ?_ ?_ ?_ o
  · intro s henc
    simp [injectSecretsEntry, henc, lazySecretCallWithKey]
  · intro s henc
    simp [injectSecretsEntry, henc]
  · intro o2 ih
    simp only [injectSecretsEntry]
    cases h1 : injectSecrets key o2 with
    | error e =>
        simp only [h1, Bind.bind, Except.bind]
        exact ne_fuelOut_propagate h1 ih
    | ok a => simp [h1, Bind.bind, Except.bind]
  · intro xs ih
    simp only [injectSecretsEntry]
    cases h1 : injectSecretsSeq key xs with
    | error e =>
        simp only [h1, Bind.bind, Except.bind]
        exact ne_fuelOut_propagate h1 ih
    | ok a => simp [h1, Bind.bind, Except.bind]
  · intro v h1 h2 h3
    cases v with
    | str s => exact absurd rfl (h1 s)
    | obj o2 => exact absurd rfl (h2 o2)
    | arr xs => exact absurd rfl (h3 xs)
    | int n => simp [injectSecretsEntry]
    | bool b => simp [injectSecretsEntry]
    | null => simp [injectSecretsEntry]
    | secret t => simp [injectSecretsEntry]
  · intro s henc
    simp [injectSecretsItem, henc, lazySecretCallWithKey]
  · intro s henc
    simp [injectSecretsItem, henc]
  · intro o2 ih
    simp only [injectSecretsItem]
    cases h1 : injectSecrets key o2 with
    | error e =>
        simp only [h1, Bind.bind, Except.bind]
        exact ne_fuelOut_propagate h1 ih
    | ok a => simp [h1, Bind.bind, Except.bind]
  · intro v h1 h2
    cases v with
    | str s => exact absurd rfl (h1 s)
    | obj o2 => exact absurd rfl (h2 o2)
    | arr xs => simp [injectSecretsItem]
    | int n => simp [injectSecretsItem]
    | bool b => simp [injectSecretsItem]
    | null => simp [injectSecretsItem]
    | secret t => simp [injectSecretsItem]
  · simp [injectSecrets]
  · intro k v rest ih1 ih2
    simp only [injectSecrets]
    cases h1 : injectSecretsEntry key v with
    | error e =>
        simp only [h1, Bind.bind, Except.bind]
        exact ne_fuelOut_propagate h1 ih1
    | ok a =>
        simp only [h1, Bind.bind, Except.bind]
        cases h2 : injectSecrets key rest with
        | error e =>
            simp only [h2, Bind.bind, Except.bind]
            exact ne_fuelOut_propagate h2 ih2
        | ok b => simp [h2, Bind.bind, Except.bind]
  · simp [injectSecretsSeq]
  · intro item rest ih1 ih2
    simp only [injectSecretsSeq]
    cases h1 : injectSecretsItem key item with
    | error e =>
        simp only [h1, Bind.bind, Except.bind]
        exact ne_fuelOut_propagate h1 ih1
    | ok a =>
        simp only [h1, Bind.bind, Except.bind]
        cases h2 : injectSecretsSeq key rest with
        | error e =>
            simp only [h2, Bind.bind, Except.bind]
            exact ne_fuelOut_propagate h2 ih2
        | ok b => simp [h2, Bind.bind, Except.bind]

/-- The finalization steps never report fuel exhaustion. -/
theorem finalizeLoad_ne_fuelOut (m : Obj) (p : String) (st : LoaderState) :
    finalizeLoad m p st ≠ .error .fuelOut := by
  unfold finalizeLoad
  cases h1 : setAppProfile m p with
  | error e =>
      simp only [h1, Bind.bind, Except.bind]
      exact ne_fuelOut_propagate h1 (setAppProfile_ne_fuelOut m p)
  | ok m2 =>
      simp only [h1, Bind.bind, Except.bind]
      cases h2 : injectMetadata m2 p st with
      | error e =>
          simp only [h2, Bind.bind, Except.bind]
          exact ne_fuelOut_propagate h2 (injectMetadata_ne_fuelOut m2 p st)
      | ok m3 =>
          simp only [h2, Bind.bind, Except.bind]
          cases h3 : injectSecrets none m3 with
          | error e =>
              simp only [h3, Bind.bind, Except.bind]
              exact ne_fuelOut_propagate h3 (injectSecrets_ne_fuelOut none m3)
          | ok m4 => simp [h3, Bind.bind, Except.bind]

/-- A loaded file is never bigger than the total filesystem weight. -/
theorem loadFile_size (fs : FS) (st : LoaderState) (p : List String) :
    szObj (loadFile fs st p).1 ≤ unseenWeight fs [] := by
  unfold loadFile
  cases hf : fsLookup fs p with
  | none => simp [szObj]
  | some o =>
      have := unseenWeight_lookup fs p o hf
      simp only
      omega

/-- Loading a file does not change the visited set. -/
theorem loadFile_seen (fs : FS) (st : LoaderState) (p : List String) :
    (loadFile fs st p).2.seenImports = st.seenImports := by
  unfold loadFile
  cases fsLookup fs p <;> rfl

/-- load never reports fuel exhaustion when given fuel proportional to
the total weight of the filesystem: the model's counterpart of the
termination of ConfigLoader.load. -/
theorem load_no_fuelOut (fs : FS) (cfg : List String) (profile ext : String) :
    load fs cfg profile ext (4 * unseenWeight fs [] + 4)
      ≠ .error .fuelOut := by
  have suff := engine_sufficient fs (normalizePath [] cfg) ext
    (4 * unseenWeight fs [] + 4)
  have amort := engine_amortized fs (normalizePath [] cfg) ext
    (4 * unseenWeight fs [] + 4)
  simp only [load]
  have hseen2 : (recordImport
      (loadFile fs initState (normalizePath [] cfg ++ ["application." ++ ext])).2
      (normalizePath [] cfg ++ ["application." ++ ext])
      none none 0).seenImports = [] := by
    simp [recordImport, loadFile_seen, initState]
  have hsz1 := loadFile_size fs initState
    (normalizePath [] cfg ++ ["application." ++ ext])
  cases hA : applyImports fs (normalizePath [] cfg) ext
      (4 * unseenWeight fs [] + 4)
      (loadFile fs initState (normalizePath [] cfg ++ ["application." ++ ext])).1
      (normalizePath [] cfg ++ ["application." ++ ext]) 0
      (getSuppressFlag
        (loadFile fs initState (normalizePath [] cfg ++ ["application." ++ ext])).1)
      (recordImport
        (loadFile fs initState (normalizePath [] cfg ++ ["application." ++ ext])).2
        (normalizePath [] cfg ++ ["application." ++ ext]) none none 0) with
  | error e =>
      show (Except.error e : Except LoadErr (Obj × LoaderState))
        ≠ Except.error LoadErr.fuelOut
      refine ne_fuelOut_propagate hA (suff.1 _ _ _ _ _ ?_)
      rw [hseen2]
      omega
  | ok ai =>
      simp only [Bind.bind, Except.bind]
      have hUai : unseenWeight fs ai.2.seenImports
          ≤ 2 * unseenWeight fs [] := by
        have := amort.1 _ _ _ _ _ _ hA
        rw [hseen2] at this
        omega
      cases hpf : fsLookup fs (normalizePath [] cfg
          ++ ["application-" ++ profile ++ "." ++ ext]) with
      | none =>
          exact finalizeLoad_ne_fuelOut _ _ _
      | some pd =>
          have hsz2 := loadFile_size fs ai.2
            (normalizePath [] cfg ++ ["application-" ++ profile ++ "." ++ ext])
          have hseen5 : (recordImport
              (loadFile fs ai.2 (normalizePath [] cfg
                ++ ["application-" ++ profile ++ "." ++ ext])).2
              (normalizePath [] cfg ++ ["application-" ++ profile ++ "." ++ ext])
              (some (normalizePath [] cfg ++ ["application." ++ ext]))
              (some ("application-" ++ profile ++ "." ++ ext)) 1).seenImports
              = ai.2.seenImports := by
            simp [recordImport, loadFile_seen]
          cases hA2 : applyImports fs (normalizePath [] cfg) ext
              (4 * unseenWeight fs [] + 4)
              (loadFile fs ai.2 (normalizePath [] cfg
                ++ ["application-" ++ profile ++ "." ++ ext])).1
              (normalizePath [] cfg ++ ["application-" ++ profile ++ "." ++ ext]) 1
              (getSuppressFlag
                (loadFile fs initState
                  (normalizePath [] cfg ++ ["application." ++ ext])).1
                || getSuppressFlag
                  (loadFile fs ai.2 (normalizePath [] cfg
                    ++ ["application-" ++ profile ++ "." ++ ext])).1)
              (recordImport
                (loadFile fs ai.2 (normalizePath [] cfg
                  ++ ["application-" ++ profile ++ "." ++ ext])).2
                (normalizePath [] cfg ++ ["application-" ++ profile ++ "." ++ ext])
                (some (normalizePath [] cfg ++ ["application." ++ ext]))
                (some ("application-" ++ profile ++ "." ++ ext)) 1) with
          | error e =>
              show (Except.error e : Except LoadErr (Obj × LoaderState))
                ≠ Except.error LoadErr.fuelOut
              refine ne_fuelOut_propagate hA2 (suff.1 _ _ _ _ _ ?_)
              rw [hseen5]
              omega
          | ok pr =>
              exact finalizeLoad_ne_fuelOut _ _ _

/-!
The positions the import walk actually visits: entries of a mapping,
mappings nested in mappings, and mappings directly inside a sequence
value.  reachNoImports asserts that no such position carries an imports
key; mappings inside sequences nested in sequences are not visited by
the code and are not constrained here.
-/
mutual

def reachNoImportsObj : Obj → Bool
  | [] => true
  | (k, v) :: rest =>
      !(k == "imports") && reachNoImportsVal v && reachNoImportsObj rest

def reachNoImportsVal : Val → Bool
  | .obj o => reachNoImportsObj o
  | .arr xs => reachNoImportsSeq xs
  | _ => true

def reachNoImportsSeq : List Val → Bool
  | [] => true
  | .obj o :: rest => reachNoImportsObj o && reachNoImportsSeq rest
  | _ :: rest => reachNoImportsSeq rest

end

theorem reachVal_scalar (v : Val) (h1 : ∀ o, v ≠ .obj o)
    (h2 : ∀ xs, v ≠ .arr xs) : reachNoImportsVal v = true := by
  cases v with
  | obj o => exact absurd rfl (h1 o)
  | arr xs => exact absurd rfl (h2 xs)
  | str s => rfl
  | int n => rfl
  | bool b => rfl
  | null => rfl
  | secret t => rfl

theorem reach_not_imports_key (o : Obj)
    (h : reachNoImportsObj o = true) : ¬ "imports" ∈ keysOf o := by
  induction o with
  | nil => simp [keysOf]
  | cons kv rest ih =>
      obtain ⟨k, v⟩ := kv
      simp only [reachNoImportsObj, Bool.and_eq_true, Bool.not_eq_true',
        beq_eq_false_iff_ne, ne_eq] at h
      simp only [keysOf, List.mem_cons]
      rintro (h2 | h2)
      · exact h.1.1 h2.symm
      · exact ih h.2 h2

theorem reach_lookup (o : Obj) (k : String) (v : Val)
    (ho : reachNoImportsObj o = true) (h : lookupObj o k = some v) :
    reachNoImportsVal v = true := by
  induction o with
  | nil => simp [lookupObj] at h
  | cons kv rest ih =>
      obtain ⟨k1, v1⟩ := kv
      simp only [reachNoImportsObj, Bool.and_eq_true] at ho
      by_cases h1 : k1 = k
      · simp only [lookupObj, h1, if_true, Option.some.injEq] at h
        subst h
        exact ho.1.2
      · simp only [lookupObj, h1, if_false] at h
        exact ih ho.2 h

theorem setKey_reach (o : Obj) (k : String) (v : Val)
    (ho : reachNoImportsObj o = true) (hk : k ≠ "imports")
    (hv : reachNoImportsVal v = true) :
    reachNoImportsObj (setKey o k v) = true := by
  induction o with
  | nil =>
      simp [setKey, reachNoImportsObj, hv, hk]
  | cons kv rest ih =>
      obtain ⟨k1, v1⟩ := kv
      simp only [reachNoImportsObj, Bool.and_eq_true] at ho
      by_cases h1 : k1 = k
      · subst h1
        simp [setKey, reachNoImportsObj, hv, hk, ho.2]
      · simp only [setKey, h1, if_false, reachNoImportsObj, Bool.and_eq_true]
        exact ⟨ho.1, ih ho.2⟩

theorem deep_merge_keys (a b : Obj) (k : String)
    (h : k ∈ keysOf (deep_merge a b)) : k ∈ keysOf a ∨ k ∈ keysOf b := by
  refine deep_merge.induct
    (fun a b => ∀ k, k ∈ keysOf (deep_merge a b) → k ∈ keysOf a ∨ k ∈ keysOf b)
    (fun base k0 v => ∀ k, k ∈ keysOf (mergeKey base k0 v) →
      k ∈ keysOf base ∨ k = k0)
    ?_ ?_ ?_ ?_ ?_ a b k h
  · intro base k0 om bm hlk ih k2 h2
    simp only [mergeKey, hlk] at h2
    rcases keys_setKey base k0 (.obj (deep_merge bm om)) with he | he <;>
      rw [he] at h2
    · exact Or.inl h2
    · simp only [List.mem_append, List.mem_singleton] at h2
      rcases h2 with h2 | h2
      · exact Or.inl h2
      · exact Or.inr h2
  · intro base k0 om hno k2 h2
    rw [mergeKey_obj_not_mapping base k0 om (fun bm hh => (hno bm hh).elim)] at h2
    rcases keys_setKey base k0 (.obj om) with he | he <;> rw [he] at h2
    · exact Or.inl h2
    · simp only [List.mem_append, List.mem_singleton] at h2
      rcases h2 with h2 | h2
      · exact Or.inl h2
      · exact Or.inr h2
  · intro base k0 v hno k2 h2
    rw [mergeKey_eq_setKey base k0 v (fun om hh => (hno om hh).elim)] at h2
    rcases keys_setKey base k0 v with he | he <;> rw [he] at h2
    · exact Or.inl h2
    · simp only [List.mem_append, List.mem_singleton] at h2
      rcases h2 with h2 | h2
      · exact Or.inl h2
      · exact Or.inr h2
  · intro base k2 h2
    simp only [deep_merge] at h2
    exact Or.inl h2
  · intro base k0 v rest ih1 ih2 k2 h2
    simp only [deep_merge] at h2
    rcases ih2 k2 h2 with h3 | h3
    · rcases ih1 k2 h3 with h4 | h4
      · exact Or.inl h4
      · exact Or.inr (by simp [keysOf, h4])
    · exact Or.inr (by simp [keysOf, h3])

theorem deep_merge_reach (a b : Obj)
    (ha : reachNoImportsObj a = true) (hb : reachNoImportsObj b = true) :
    reachNoImportsObj (deep_merge a b) = true := by
  refine deep_merge.induct
    (fun a b => reachNoImportsObj a = true → reachNoImportsObj b = true →
      reachNoImportsObj (deep_merge a b) = true)
    (fun base k0 v => reachNoImportsObj base = true → k0 ≠ "imports" →
      reachNoImportsVal v = true → reachNoImportsObj (mergeKey base k0 v) = true)
    ?_ ?_ ?_ ?_ ?_ a b ha hb
  · intro base k0 om bm hlk ih hbase hk0 hv
    simp only [mergeKey, hlk]
    refine setKey_reach base k0 _ hbase hk0 ?_
    have hbm := reach_lookup base k0 _ hbase hlk
    exact ih hbm hv
  · intro base k0 om hno hbase hk0 hv
    rw [mergeKey_obj_not_mapping base k0 om (fun bm hh => (hno bm hh).elim)]
    exact setKey_reach base k0 _ hbase hk0 hv
  · intro base k0 v hno hbase hk0 hv
    rw [mergeKey_eq_setKey base k0 v (fun om hh => (hno om hh).elim)]
    exact setKey_reach base k0 v hbase hk0 hv
  · intro base hbase _
    simpa [deep_merge] using hbase
  · intro base k0 v rest ih1 ih2 hbase hover
    simp only [reachNoImportsObj, Bool.and_eq_true, Bool.not_eq_true',
      beq_eq_false_iff_ne, ne_eq] at hover
    simp only [deep_merge]
    exact ih2 (ih1 hbase hover.1.1 hover.1.2) hover.2

theorem reach_engine (fs : FS) (cfg : List String) (ext : String) :
    ∀ fuel : Nat,
    (∀ node pf d sup st r,
        applyImports fs cfg ext fuel node pf d sup st = .ok r →
        reachNoImportsObj r.1 = true)
    ∧ (∀ items node pf d sup st r,
        processImportsList fs cfg ext fuel items node pf d sup st = .ok r →
        ¬ "imports" ∈ keysOf node → ¬ "imports" ∈ keysOf r.1)
    ∧ (∀ entries pf d sup st r,
        processChildren fs cfg ext fuel entries pf d sup st = .ok r →
        ¬ "imports" ∈ keysOf entries → reachNoImportsObj r.1 = true)
    ∧ (∀ xs pf d sup st r,
        processSeq fs cfg ext fuel xs pf d sup st = .ok r →
        reachNoImportsSeq r.1 = true) := by
  intro fuel
  induction fuel with
  | zero =>
      refine ⟨?_, ?_, ?_, ?_⟩
      · intro node pf d sup st r h
        rw [applyImports_zero] at h
        cases h
      · intro items node pf d sup st r h _
        rw [processImportsList_zero] at h
        cases h
      · intro entries pf d sup st r h _
        rw [processChildren_zero] at h
        cases h
      · intro xs pf d sup st r h
        rw [processSeq_zero] at h
        cases h
  | succ fuel ih =>
      obtain ⟨ihAI, ihPL, ihPC, ihPS⟩ := ih
      refine ⟨?_, ?_, ?_, ?_⟩
      · intro node pf d sup st r h
        rw [applyImports_succ] at h
        rcases hlk : lookupObj node "imports" with _ | v
        · rw [hlk] at h
          exact ihPC _ _ _ _ _ _ h (lookup_none_not_key node "imports" hlk)
        · rw [hlk] at h
          cases v with
          | arr items =>
              obtain ⟨pr, hpr, h2⟩ := bindOk h
              exact ihPC _ _ _ _ _ _ h2
                (ihPL _ _ _ _ _ _ _ hpr (keys_removeKey_not_mem node "imports"))
          | str s => exact ihPC _ _ _ _ _ _ h (keys_removeKey_not_mem node "imports")
          | int n => exact ihPC _ _ _ _ _ _ h (keys_removeKey_not_mem node "imports")
          | bool b => exact ihPC _ _ _ _ _ _ h (keys_removeKey_not_mem node "imports")
          | null => exact ihPC _ _ _ _ _ _ h (keys_removeKey_not_mem node "imports")
          | obj o => exact ihPC _ _ _ _ _ _ h (keys_removeKey_not_mem node "imports")
          | secret t => exact ihPC _ _ _ _ _ _ h (keys_removeKey_not_mem node "imports")
      · intro items node pf d sup st r h hk
        cases items with
        | nil =>
            rw [processImportsList_nil] at h
            cases h
            exact hk
        | cons item rest =>
            cases item with
            | str key =>
                rw [processImportsList_cons_str] at h
                obtain ⟨imp, himp, h2⟩ := bindOk h
                by_cases hseen : imp ∈ st.seenImports
                · rw [if_pos hseen] at h2
                  cases h2
                · rw [if_neg hseen] at h2
                  obtain ⟨res, hres, h3⟩ := bindOk h2
                  refine ihPL _ _ _ _ _ _ _ h3 ?_
                  intro hmem
                  rcases deep_merge_keys node res.1 "imports" hmem with hmem | hmem
                  · exact hk hmem
                  · exact reach_not_imports_key res.1
                      (ihAI _ _ _ _ _ _ hres) hmem
            | int n =>
                rw [processImportsList_cons_other fs cfg ext fuel _ rest node
                  pf d sup st (fun s => by simp)] at h
                cases h
            | bool b =>
                rw [processImportsList_cons_other fs cfg ext fuel _ rest node
                  pf d sup st (fun s => by simp)] at h
                cases h
            | null =>
                rw [processImportsList_cons_other fs cfg ext fuel _ rest node
                  pf d sup st (fun s => by simp)] at h
                cases h
            | obj o =>
                rw [processImportsList_cons_other fs cfg ext fuel _ rest node
                  pf d sup st (fun s => by simp)] at h
                cases h
            | arr xs =>
                rw [processImportsList_cons_other fs cfg ext fuel _ rest node
                  pf d sup st (fun s => by simp)] at h
                cases h
            | secret t =>
                rw [processImportsList_cons_other fs cfg ext fuel _ rest node
                  pf d sup st (fun s => by simp)] at h
                cases h
      · intro entries pf d sup st r h hk
        cases entries with
        | nil =>
            rw [processChildren_nil] at h
            cases h
            rfl
        | cons kv rest =>
            obtain ⟨k, v⟩ := kv
            have hk1 : k ≠ "imports" := by
              intro hh
              exact hk (by simp [keysOf, hh])
            have hk2 : ¬ "imports" ∈ keysOf rest := by
              intro hh
              exact hk (by simp [keysOf, hh])
            cases v with
            | obj o =>
                rw [processChildren_cons_obj] at h
                obtain ⟨r1, hr1, h2⟩ := bindOk h
                obtain ⟨r2, hr2, h3⟩ := bindOk h2
                cases h3
                simp only [reachNoImportsObj, reachNoImportsVal,
                  Bool.and_eq_true, Bool.not_eq_true', beq_eq_false_iff_ne, ne_eq]
                exact ⟨⟨hk1, ihAI _ _ _ _ _ r1 hr1⟩, ihPC _ _ _ _ _ r2 hr2 hk2⟩
            | arr xs =>
                rw [processChildren_cons_arr] at h
                obtain ⟨r1, hr1, h2⟩ := bindOk h
                obtain ⟨r2, hr2, h3⟩ := bindOk h2
                cases h3
                simp only [reachNoImportsObj, reachNoImportsVal,
                  Bool.and_eq_true, Bool.not_eq_true', beq_eq_false_iff_ne, ne_eq]
                exact ⟨⟨hk1, ihPS _ _ _ _ _ r1 hr1⟩, ihPC _ _ _ _ _ r2 hr2 hk2⟩
            | str s =>
                rw [processChildren_cons_other fs cfg ext fuel k _ rest pf d
                  sup st (fun o => by simp) (fun xs => by simp)] at h
                obtain ⟨r2, hr2, h3⟩ := bindOk h
                cases h3
                simp only [reachNoImportsObj, reachNoImportsVal,
                  Bool.and_eq_true, Bool.not_eq_true', beq_eq_false_iff_ne, ne_eq]
                exact ⟨⟨hk1, trivial⟩, ihPC _ _ _ _ _ r2 hr2 hk2⟩
            | int n =>
                rw [processChildren_cons_other fs cfg ext fuel k _ rest pf d
                  sup st (fun o => by simp) (fun xs => by simp)] at h
                obtain ⟨r2, hr2, h3⟩ := bindOk h
                cases h3
                simp only [reachNoImportsObj, reachNoImportsVal,
                  Bool.and_eq_true, Bool.not_eq_true', beq_eq_false_iff_ne, ne_eq]
                exact ⟨⟨hk1, trivial⟩, ihPC _ _ _ _ _ r2 hr2 hk2⟩
            | bool b =>
                rw [processChildren_cons_other fs cfg ext fuel k _ rest pf d
                  sup st (fun o => by simp) (fun xs => by simp)] at h
                obtain ⟨r2, hr2, h3⟩ := bindOk h
                cases h3
                simp only [reachNoImportsObj, reachNoImportsVal,
                  Bool.and_eq_true, Bool.not_eq_true', beq_eq_false_iff_ne, ne_eq]
                exact ⟨⟨hk1, trivial⟩, ihPC _ _ _ _ _ r2 hr2 hk2⟩
            | null =>
                rw [processChildren_cons_other fs cfg ext fuel k _ rest pf d
                  sup st (fun o => by simp) (fun xs => by simp)] at h
                obtain ⟨r2, hr2, h3⟩ := bindOk h
                cases h3
                simp only [reachNoImportsObj, reachNoImportsVal,
                  Bool.and_eq_true, Bool.not_eq_true', beq_eq_false_iff_ne, ne_eq]
                exact ⟨⟨hk1, trivial⟩, ihPC _ _ _ _ _ r2 hr2 hk2⟩
            | secret t =>
                rw [processChildren_cons_other fs cfg ext fuel k _ rest pf d
                  sup st (fun o => by simp) (fun xs => by simp)] at h
                obtain ⟨r2, hr2, h3⟩ := bindOk h
                cases h3
                simp only [reachNoImportsObj, reachNoImportsVal,
                  Bool.and_eq_true, Bool.not_eq_true', beq_eq_false_iff_ne, ne_eq]
                exact ⟨⟨hk1, trivial⟩, ihPC _ _ _ _ _ r2 hr2 hk2⟩
      · intro xs pf d sup st r h
        cases xs with
        | nil =>
            rw [processSeq_nil] at h
            cases h
            rfl
        | cons v rest =>
            cases v with
            | obj o =>
                rw [processSeq_cons_obj] at h
                obtain ⟨r1, hr1, h2⟩ := bindOk h
                obtain ⟨r2, hr2, h3⟩ := bindOk h2
                cases h3
                simp only [reachNoImportsSeq, Bool.and_eq_true]
                exact ⟨ihAI _ _ _ _ _ r1 hr1, ihPS _ _ _ _ _ r2 hr2⟩
            | str s =>
                rw [processSeq_cons_other fs cfg ext fuel _ rest pf d sup st
                  (fun o => by simp)] at h
                obtain ⟨r2, hr2, h3⟩ := bindOk h
                cases h3
                exact ihPS _ _ _ _ _ r2 hr2
            | int n =>
                rw [processSeq_cons_other fs cfg ext fuel _ rest pf d sup st
                  (fun o => by simp)] at h
                obtain ⟨r2, hr2, h3⟩ := bindOk h
                cases h3
                exact ihPS _ _ _ _ _ r2 hr2
            | bool b =>
                rw [processSeq_cons_other fs cfg ext fuel _ rest pf d sup st
                  (fun o => by simp)] at h
                obtain ⟨r2, hr2, h3⟩ := bindOk h
                cases h3
                exact ihPS _ _ _ _ _ r2 hr2
            | null =>
                rw [processSeq_cons_other fs cfg ext fuel _ rest pf d sup st
                  (fun o => by simp)] at h
                obtain ⟨r2, hr2, h3⟩ := bindOk h
                cases h3
                exact ihPS _ _ _ _ _ r2 hr2
            | arr ys =>
                rw [processSeq_cons_other fs cfg ext fuel _ rest pf d sup st
                  (fun o => by simp)] at h
                obtain ⟨r2, hr2, h3⟩ := bindOk h
                cases h3
                exact ihPS _ _ _ _ _ r2 hr2
            | secret t =>
                rw [processSeq_cons_other fs cfg ext fuel _ rest pf d sup st
                  (fun o => by simp)] at h
                obtain ⟨r2, hr2, h3⟩ := bindOk h
                cases h3
                exact ihPS _ _ _ _ _ r2 hr2

theorem setdefaultObj_reach (o : Obj) (k : String) (m : Obj)
    (ho : reachNoImportsObj o = true) (h : setdefaultObj o k = .ok m) :
    reachNoImportsObj m = true := by
  unfold setdefaultObj at h
  rcases hlk : lookupObj o k with _ | v
  · rw [hlk] at h
    cases h
    rfl
  · rw [hlk] at h
    cases v with
    | obj mm =>
        cases h
        exact reach_lookup o k _ ho hlk
    | str s => cases h
    | int n => cases h
    | bool b => cases h
    | null => cases h
    | arr xs => cases h
    | secret t => cases h

theorem reach_keep_or_set (m : Obj) (k : String) (v : Val) (lk : Option Val)
    (hm : reachNoImportsObj m = true) (hk : k ≠ "imports")
    (hv : reachNoImportsVal v = true) :
    reachNoImportsObj (match lk with
      | some _ => m
      | none => setKey m k v) = true := by
  cases lk with
  | none => exact setKey_reach m k v hm hk hv
  | some _ => exact hm

theorem reachSeq_of_forall (l : List Val)
    (h : ∀ v, v ∈ l → reachNoImportsVal v = true) :
    reachNoImportsSeq l = true := by
  induction l with
  | nil => rfl
  | cons v rest ih =>
      have hv := h v (List.mem_cons_self v rest)
      have hr := ih (fun w hw => h w (List.mem_cons_of_mem v hw))
      cases v with
      | obj o =>
          simp only [reachNoImportsSeq, Bool.and_eq_true]
          exact ⟨hv, hr⟩
      | str s => exact hr
      | int n => exact hr
      | bool b => exact hr
      | null => exact hr
      | arr xs => exact hr
      | secret t => exact hr

theorem reach_eventToVal (e : ImportEvent) :
    reachNoImportsVal (eventToVal e) = true := by
  rcases e with ⟨file, importedBy, importKey, depth, order⟩
  cases importedBy <;> cases importKey <;> rfl

theorem setAppProfile_reach (merged out : Obj) (p : String)
    (hm : reachNoImportsObj merged = true)
    (h : setAppProfile merged p = .ok out) :
    reachNoImportsObj out = true := by
  unfold setAppProfile at h
  rcases hlk : lookupObj merged "app" with _ | v
  · rw [hlk] at h
    cases h
    refine setKey_reach merged "app" _ hm (by decide) ?_
    rfl
  · rw [hlk] at h
    cases v with
    | obj o =>
        cases h
        refine setKey_reach merged "app" _ hm (by decide) ?_
        show reachNoImportsObj (setKey o "profile" (.str p)) = true
        exact setKey_reach o "profile" _ (reach_lookup merged "app" _ hm hlk)
          (by decide) rfl
    | str s => cases h
    | int n => cases h
    | bool b => cases h
    | null => cases h
    | arr xs => cases h
    | secret t => cases h

theorem injectMetadata_reach (merged out : Obj) (p : String)
    (st : LoaderState) (hm : reachNoImportsObj merged = true)
    (h : injectMetadata merged p st = .ok out) :
    reachNoImportsObj out = true := by
  unfold injectMetadata at h
  obtain ⟨node, hnode, h⟩ := bindOk h
  obtain ⟨meta, hmeta, h⟩ := bindOk h
  cases h
  have hnodeR := setdefaultObj_reach merged "sprigconfig" node hm hnode
  have hmetaR := setdefaultObj_reach node "_meta" meta hnodeR hmeta
  refine setKey_reach merged "sprigconfig" _ hm (by decide) ?_
  show reachNoImportsObj (setKey node "_meta" _) = true
  refine setKey_reach node "_meta" _ hnodeR (by decide) ?_
  show reachNoImportsObj _ = true
  refine reach_keep_or_set _ "import_trace" _ _ ?_ (by decide) ?_
  · refine reach_keep_or_set _ "sources" _ _ ?_ (by decide) ?_
    · exact reach_keep_or_set _ "profile" _ _ hmetaR (by decide) rfl
    · show reachNoImportsSeq (st.mergeTrace.map (fun p2 => .str (renderPath p2))) = true
      refine reachSeq_of_forall _ ?_
      intro v hv
      rcases List.mem_map.mp hv with ⟨p2, _, hp2⟩
      rw [← hp2]
      rfl
  · show reachNoImportsSeq (st.importTrace.map eventToVal) = true
    refine reachSeq_of_forall _ ?_
    intro v hv
    rcases List.mem_map.mp hv with ⟨e, _, he⟩
    rw [← he]
    exact reach_eventToVal e

/-- C2 (amended): whenever load() completes, the returned tree carries no
imports key at any position the import walk actually visits — entries of
mappings, mappings nested in mappings, and mappings directly inside
sequences (mappings inside sequences nested in sequences are skipped by
the walk and can retain the key); and load() terminates: fuel
proportional to the total weight of the filesystem never runs out, on
cyclic and acyclic configurations alike. -/
theorem c2_imports_removed_at_visited_positions_and_load_terminates :
    (∀ fs cfg profile ext fuel tree st,
        load fs cfg profile ext fuel = .ok (tree, st) →
        reachNoImportsObj tree = true)
    ∧ (∀ fs cfg profile ext,
        load fs cfg profile ext (4 * unseenWeight fs [] + 4)
          ≠ .error .fuelOut) := by
  refine ⟨?_, fun fs cfg profile ext => load_no_fuelOut fs cfg profile ext⟩
  intro fs cfg profile ext fuel tree st h
  simp only [load] at h
  obtain ⟨ai, hai, h⟩ := bindOk h
  have hRai : reachNoImportsObj ai.1 = true :=
    (reach_engine fs (normalizePath [] cfg) ext fuel).1 _ _ _ _ _ _ hai
  have h2 : ∃ pr : Obj × LoaderState, reachNoImportsObj pr.1 = true ∧
      finalizeLoad (deep_merge ai.1 pr.1) profile pr.2 = .ok (tree, st) := by
    rcases hfs : fsLookup fs (normalizePath [] cfg
        ++ ["application-" ++ profile ++ "." ++ ext]) with _ | pdata
    · rw [hfs] at h
      obtain ⟨pr, hpr, h⟩ := bindOk h
      cases hpr
      refine ⟨_, ?_, h⟩
      rfl
    · rw [hfs] at h
      obtain ⟨pr, hpr, h⟩ := bindOk h
      exact ⟨pr, (reach_engine fs (normalizePath [] cfg) ext fuel).1
        _ _ _ _ _ _ hpr, h⟩
  obtain ⟨pr, hRpr, h⟩ := h2
  have hRm : reachNoImportsObj (deep_merge ai.1 pr.1) = true :=
    deep_merge_reach _ _ hRai hRpr
  unfold finalizeLoad at h
  obtain ⟨m2, hm2, h⟩ := bindOk h
  obtain ⟨m3, hm3, h⟩ := bindOk h
  obtain ⟨m4, hm4, h⟩ := bindOk h
  injection h with hp
  have htree : m4 = tree := congrArg Prod.fst hp
  have hid : m4 = m3 := injectSecrets_ok_id none m3 m4 hm4
  have hRm2 := setAppProfile_reach _ _ _ hRm hm2
  have hRm3 := injectMetadata_reach _ _ _ _ hRm2 hm3
  rw [← htree, hid]
  exact hRm3

theorem c2_witness :
    reachNoImportsObj nestedImportTree = true
    ∧ load fsNestedImport ["cfg"] "dev" "yml"
        (4 * unseenWeight fsNestedImport [] + 4) ≠ .error .fuelOut :=
  ⟨c2_imports_removed_at_visited_positions_and_load_terminates.1
      fsNestedImport ["cfg"] "dev" "yml" 20 nestedImportTree
      nestedImportState rfl,
   c2_imports_removed_at_visited_positions_and_load_terminates.2
      fsNestedImport ["cfg"] "dev" "yml"⟩

/-- C3 (amended): the circular-import error is governed by a per-load
visited set.  For every state, surrounding node, remaining directives and
remaining fuel, an import directive whose reference resolves to a path
already in the set fails with the ConfigLoadError naming that path;
recording a file in the trace never adds to the set, nor does loading a
file from disk, and the set every load call starts from is empty (seeded
fresh per call, so only import-resolved paths ever enter it).  Files A
imports B imports A therefore fail with the circular error at finite
fuel (no infinite loop), and a three-file chain with every file
referenced once and no overlay on disk loads without error; but the set
is shared across sibling directives and across the base and overlay
phases, so a base file importing the profile overlay file — an acyclic,
duplicate-free graph — still raises the circular error when the
overlay's directive is re-processed in the overlay phase. -/
theorem c3_circular_error_governed_by_visited_set :
    (∀ (fs : FS) (cfg : List String) (ext : String) (fuel : Nat)
        (key : String) (rest : List Val) (node : Obj) (pf : List String)
        (d : Nat) (sup : Bool) (st : LoaderState) (p : List String),
        resolveImport cfg ext key = .ok p → p ∈ st.seenImports →
        processImportsList fs cfg ext (fuel + 1) (.str key :: rest) node
          pf d sup st = .error (.circular p))
    ∧ (∀ (st : LoaderState) (file : List String) (ib : Option (List String))
        (ik : Option String) (d : Nat),
        (recordImport st file ib ik d).seenImports = st.seenImports)
    ∧ (∀ (fs : FS) (st : LoaderState) (p : List String),
        (loadFile fs st p).2.seenImports = st.seenImports)
    ∧ initState.seenImports = []
    ∧ load fsCycle ["cfg"] "dev" "yml" 20 = .error (.circular ["cfg", "a.yml"])
    ∧ (load fsChain ["cfg"] "dev" "yml" 20).isOk = true
    ∧ load fsBaseImportsOverlay ["cfg"] "dev" "yml" 20
        = .error (.circular ["cfg", "w.yml"]) := by
  refine ⟨?_, ?_, ?_, rfl, rfl, rfl, rfl⟩
  · intro fs cfg ext fuel key rest node pf d sup st p hres hmem
    rw [processImportsList_cons_str]
    simp only [hres, Bind.bind, Except.bind, if_pos hmem]
  · intro st file ib ik d
    rfl
  · intro fs st p
    unfold loadFile
    cases fsLookup fs p <;> rfl

/-- Closed witness for the universally quantified parts of the C3
theorem, discharged at a concrete state whose visited set already holds
the resolved path of the directive at hand. -/
theorem c3_circular_error_governed_by_visited_set_witness :
    processImportsList [] ["cfg"] "yml" 1 [.str "b"] []
      ["cfg", "application.yml"] 0 false
      ⟨[], [], [["cfg", "b.yml"]], 0⟩ = .error (.circular ["cfg", "b.yml"])
    ∧ (recordImport ⟨[], [], [["cfg", "b.yml"]], 0⟩
        ["cfg", "b.yml"] none none 0).seenImports
      = (⟨[], [], [["cfg", "b.yml"]], 0⟩ : LoaderState).seenImports
    ∧ (loadFile [] ⟨[], [], [["cfg", "b.yml"]], 0⟩
        ["cfg", "b.yml"]).2.seenImports
      = (⟨[], [], [["cfg", "b.yml"]], 0⟩ : LoaderState).seenImports :=
  ⟨c3_circular_error_governed_by_visited_set.1 [] ["cfg"] "yml" 0 "b" []
      [] ["cfg", "application.yml"] 0 false ⟨[], [], [["cfg", "b.yml"]], 0⟩
      ["cfg", "b.yml"] rfl (by simp),
   c3_circular_error_governed_by_visited_set.2.1
      ⟨[], [], [["cfg", "b.yml"]], 0⟩ ["cfg", "b.yml"] none none 0,
   c3_circular_error_governed_by_visited_set.2.2.1 []
      ⟨[], [], [["cfg", "b.yml"]], 0⟩ ["cfg", "b.yml"]⟩
